import Mathlib

/-!
# Story Graph Engine: a verification development

A shallow embedding of the story-graph engine of the CYOA-Creator
application (TypeScript sources `src/utils/storyUtils.ts`, `src/App.tsx`,
`src/components/ExportScreen.tsx`), together with theorems settling the
frozen specification claims about it.

Modelling conventions:
* JavaScript strings are Lean `String`s for identifiers and `List Char`
  for prose text that the pagination code slices character by character.
* `Record<string, T>` / `Map<string, T>` values are association lists in
  insertion order; `Map.set` updates in place (`mapSet`), and lookups take
  the first (= current) binding.
* JavaScript truthiness on `string | null` fields (`if (choice.nextNodeId)`)
  is `some t` with `t ≠ ""`.
* `Math.random()`-driven choices are a `rand : Nat → Nat` oracle; the index
  drawn at Fisher-Yates step `i` is `rand i % (i + 1)`, which ranges over
  exactly the values `Math.floor(Math.random() * (i + 1))` can take.
* Possibly non-terminating `while` loops (the backward walk of
  `calculatePathScores`) take a fuel argument; `none` means the loop has
  not exited within the given fuel.
-/

namespace CYOA

/-- `ChoicePrediction` from `src/types.ts`: `'good' | 'bad' | 'mixed' | 'none'`. -/
inductive ChoicePrediction where
  | good
  | bad
  | mixed
  | none
deriving DecidableEq

/-- `Choice` from `src/types.ts`. -/
structure Choice where
  id : String
  text : String
  nextNodeId : Option String
  isChosen : Bool
  prediction : ChoicePrediction
  predictionRationale : String
deriving DecidableEq

/-- `StoryNode` from `src/types.ts`.  `cgImageUrl` is the extra field the
running application stores on nodes (`GameScreen.tsx`) and that
`ExportScreen.tsx` reads; it is part of the runtime record even though the
declared interface omits it. -/
structure StoryNode where
  id : String
  dialogue : List Char
  illustrationUrl : Option String
  cgImageUrl : Option String
  choices : List Choice
deriving DecidableEq

/-- `endingConditions` component of `Story` from `src/types.ts`. -/
structure EndingConditions where
  good : Nat
  bad : Nat
  mixed : Nat
deriving DecidableEq

/-- `Story` from `src/types.ts`.  `nodes` is the `Record<string, StoryNode>`
in key-insertion order. -/
structure Story where
  title : String
  coverImageUrl : String
  prompt : String
  artStyle : String
  endingConditions : EndingConditions
  nodes : List (String × StoryNode)
  startNodeId : String
  endNodeIds : List String
deriving DecidableEq

/-- JavaScript truthiness of a `string | null` value: non-null and non-empty. -/
def jsTruthy : Option String → Bool
  | Option.none => false
  | some s => s ≠ ""

/-- `Map.set` / keyed record update: replace the binding in place if the key
is present, otherwise append it. -/
def mapSet {α : Type} (m : List (String × α)) (k : String) (v : α) : List (String × α) :=
  match m with
  | [] => [(k, v)]
  | (k', v') :: rest => if k' = k then (k, v) :: rest else (k', v') :: mapSet rest k v

@[simp] theorem mapSet_nil {α : Type} (k : String) (v : α) : mapSet [] k v = [(k, v)] := rfl

theorem mapSet_cons {α : Type} (k' : String) (v' : α) (rest : List (String × α)) (k : String) (v : α) :
    mapSet ((k', v') :: rest) k v =
      if k' = k then (k, v) :: rest else (k', v') :: mapSet rest k v := rfl

/-- When the key is absent, `mapSet` is an append. -/
theorem mapSet_eq_append {α : Type} (m : List (String × α)) (k : String) (v : α)
    (h : k ∉ m.map Prod.fst) : mapSet m k v = m ++ [(k, v)] := by
  induction m with
  | nil => rfl
  | cons p rest ih =>
    obtain ⟨k', v'⟩ := p
    simp only [List.map_cons, List.mem_cons] at h
    push_neg at h
    simp [mapSet_cons, Ne.symm h.1, ih h.2]

/-- The common inner loop of the two breadth-first traversals
(`generatePageMap` in `src/utils/storyUtils.ts` lines 25-33 and
`handleDeleteNode` in `src/App.tsx` lines 258-264): scan a node's choices in
stored order and return, in order, the targets that are truthy, not yet
visited, and present in `nodes`; each such target is added to the visited
set before the remaining choices are inspected. -/
def collectNew (nodes : List (String × StoryNode)) :
    List Choice → List String → List String
  | [], _ => []
  | c :: cs, visited =>
    match c.nextNodeId with
    | Option.none => collectNew nodes cs visited
    | some t =>
      if t ≠ "" ∧ ¬ visited.contains t ∧ (List.lookup t nodes).isSome then
        t :: collectNew nodes cs (visited ++ [t])
      else
        collectNew nodes cs visited

/-- The per-node enqueue step of both traversals: the new targets discovered
while processing `nodeId` (none when `nodeId` has no node). -/
def newNodes (nodes : List (String × StoryNode)) (nodeId : String)
    (visited : List String) : List String :=
  match List.lookup nodeId nodes with
  | Option.none => []
  | some node => collectNew nodes node.choices visited

theorem contains_true_iff (l : List String) (a : String) :
    (l.contains a = true) ↔ a ∈ l := by
  simp [List.elem_iff]

theorem contains_false_iff (l : List String) (a : String) :
    (l.contains a = false) ↔ a ∉ l := by
  simp [List.elem_iff]

theorem collectNew_not_visited {nodes : List (String × StoryNode)}
    {cs : List Choice} {visited : List String} {t : String}
    (h : t ∈ collectNew nodes cs visited) : t ∉ visited := by
  induction cs generalizing visited with
  | nil => simp [collectNew] at h
  | cons c cs ih =>
    cases hn : c.nextNodeId with
    | none => simp only [collectNew, hn] at h; exact ih h
    | some u =>
      simp only [collectNew, hn] at h
      split at h
      · next hc =>
        rcases List.mem_cons.1 h with rfl | h
        · simpa [List.elem_iff] using hc.2.1
        · intro hvis
          exact ih h (by simp [hvis])
      · exact ih h

theorem collectNew_mem_keys {nodes : List (String × StoryNode)}
    {cs : List Choice} {visited : List String} {t : String}
    (h : t ∈ collectNew nodes cs visited) : (List.lookup t nodes).isSome := by
  induction cs generalizing visited with
  | nil => simp [collectNew] at h
  | cons c cs ih =>
    cases hn : c.nextNodeId with
    | none => simp only [collectNew, hn] at h; exact ih h
    | some u =>
      simp only [collectNew, hn] at h
      split at h
      · next hc =>
        rcases List.mem_cons.1 h with rfl | h
        · exact hc.2.2
        · exact ih h
      · exact ih h

theorem newNodes_not_visited {nodes : List (String × StoryNode)}
    {nodeId : String} {visited : List String} {t : String}
    (h : t ∈ newNodes nodes nodeId visited) : t ∉ visited := by
  unfold newNodes at h
  cases hl : List.lookup nodeId nodes with
  | none => rw [hl] at h; simp at h
  | some node => rw [hl] at h; exact collectNew_not_visited h

theorem newNodes_mem_keys {nodes : List (String × StoryNode)}
    {nodeId : String} {visited : List String} {t : String}
    (h : t ∈ newNodes nodes nodeId visited) : (List.lookup t nodes).isSome := by
  unfold newNodes at h
  cases hl : List.lookup nodeId nodes with
  | none => rw [hl] at h; simp at h
  | some node => rw [hl] at h; exact collectNew_mem_keys h

theorem lookup_isSome_mem_keys {α : Type} {l : List (String × α)} {k : String}
    (h : (List.lookup k l).isSome) : k ∈ l.map Prod.fst := by
  induction l with
  | nil => simp [List.lookup] at h
  | cons p rest ih =>
    obtain ⟨k', v'⟩ := p
    simp only [List.lookup] at h
    cases hbeq : (k == k') with
    | true => simp [List.map_cons, beq_iff_eq.1 hbeq]
    | false =>
      simp only [hbeq] at h
      simp only [List.map_cons, List.mem_cons]
      exact Or.inr (ih h)

/-- A strictly smaller filtered length once a new element satisfying the old
filter but not the new one is known. -/
theorem length_filter_lt_of_mem {α : Type} [DecidableEq α] (l : List α)
    (p q : α → Bool) (himp : ∀ x, q x = true → p x = true) (a : α)
    (ha : a ∈ l) (hpa : p a = true) (hqa : ¬ q a = true) :
    (l.filter q).length < (l.filter p).length := by
  have hsub : List.Sublist (l.filter q) (l.filter p) := by
    have heq : l.filter q = (l.filter p).filter q := by
      rw [List.filter_filter]
      apply List.filter_congr
      intro x _
      cases hq : q x
      · simp
      · simp [himp x hq]
    rw [heq]
    exact List.filter_sublist _
  rcases Nat.lt_or_ge (l.filter q).length (l.filter p).length with h | h
  · exact h
  · exfalso
    have heq : l.filter q = l.filter p :=
      hsub.eq_of_length_le h
    have : a ∈ l.filter q := heq ▸ List.mem_filter.2 ⟨ha, hpa⟩
    exact hqa (List.mem_filter.1 this).2

/-- The queue-driven loop shared by `generatePageMap`
(`src/utils/storyUtils.ts` lines 19-35) and `handleDeleteNode`
(`src/App.tsx` lines 254-266): dequeue a node id, record it in the page map
with the running counter, and enqueue its newly discovered choice targets.
It returns the final page map, the final visited set (the source's
`nodesToDelete` set receives exactly the same insertions as `visited`, so
the two coincide and only one is carried), and the final counter. -/
def bfsVisit (nodes : List (String × StoryNode)) :
    List String → List String → List (String × Nat) → Nat →
    (List (String × Nat) × List String × Nat)
  | [], visited, pageMap, counter => (pageMap, visited, counter)
  | nodeId :: rest, visited, pageMap, counter =>
    let adds := newNodes nodes nodeId visited
    bfsVisit nodes (rest ++ adds) (visited ++ adds)
      (mapSet pageMap nodeId counter) (counter + 1)
termination_by queue visited _ _ =>
  (((nodes.map Prod.fst).filter fun k => ! visited.contains k).length,
    queue.length)
decreasing_by
  rcases hadds : newNodes nodes nodeId visited with _ | ⟨a, adds'⟩
  · simp only [hadds, List.append_nil]
    exact Prod.Lex.right _ (by simp)
  · apply Prod.Lex.left
    have hmem : a ∈ newNodes nodes nodeId visited := by rw [hadds]; simp
    rw [← hadds]
    apply length_filter_lt_of_mem
      ((nodes.map Prod.fst)) (fun k => ! visited.contains k)
      (fun k => ! (visited ++ newNodes nodes nodeId visited).contains k)
      ?imp a (lookup_isSome_mem_keys (newNodes_mem_keys hmem)) ?pa ?qa
    case imp =>
      intro x hx
      simp only [Bool.not_eq_true', contains_false_iff, List.mem_append] at hx ⊢
      exact fun hv => hx (Or.inl hv)
    case pa =>
      simp only [Bool.not_eq_true', contains_false_iff]
      exact newNodes_not_visited hmem
    case qa =>
      simp only [Bool.not_eq_true', contains_false_iff, List.mem_append, not_not]
      exact Or.inr hmem

/-- The orphan-appending tail of `generatePageMap`
(`src/utils/storyUtils.ts` lines 38-42): append each orphan id with the
running page counter. -/
def appendOrphans (pm : List (String × Nat)) (counter : Nat) :
    List String → List (String × Nat)
  | [] => pm
  | o :: os => appendOrphans (mapSet pm o counter) (counter + 1) os

/-- `generatePageMap` from `src/utils/storyUtils.ts` lines 11-45: BFS page
numbering from the start node followed by lexicographically sorted orphans.
`Array.prototype.sort()` with no comparator sorts strings ascending, modelled
by insertion sort with `String` order. -/
def generatePageMap (nodes : List (String × StoryNode)) (startNodeId : String) :
    List (String × Nat) :=
  if (List.lookup startNodeId nodes).isSome then
    let r := bfsVisit nodes [startNodeId] [startNodeId] [] 1
    let orphanIds := List.insertionSort (· ≤ ·)
      ((nodes.map Prod.fst).filter fun k => ! (List.lookup k r.1).isSome)
    appendOrphans r.1 r.2.2 orphanIds
  else []

/-- `getParentMap` from `src/utils/storyUtils.ts` lines 53-63: for every node
(in insertion order) and every choice with a truthy `nextNodeId`, record
`parentMap[nextNodeId] = nodeId`; `Map.set` makes the last writer win. -/
def getParentMap (story : Story) : List (String × String) :=
  story.nodes.foldl
    (fun pm kv =>
      kv.2.choices.foldl
        (fun pm c =>
          match c.nextNodeId with
          | Option.none => pm
          | some t => if t ≠ "" then mapSet pm t kv.1 else pm)
        pm)
    []

/-- The backward `while (currentId)` walk of `calculatePathScores`
(`src/utils/storyUtils.ts` lines 82-87), with fuel: each iteration prepends
`currentId` to the path, stops on the start node, and otherwise follows the
parent map (`undefined`, modelled `none`, ends the loop, as does the falsy
empty string).  `none` as the overall result means the loop has not exited
within `fuel` iterations. -/
def pathLoop (parentMap : List (String × String)) (startNodeId : String) :
    Option String → List String → Nat → Option (List String)
  | _, _, 0 => Option.none
  | currentId, path, fuel + 1 =>
    match currentId with
    | Option.none => some path
    | some s =>
      if s = "" then some path
      else
        let path' := s :: path
        if s = startNodeId then some path'
        else pathLoop parentMap startNodeId (List.lookup s parentMap) path' fuel

/-- The score record `{ good, bad, mixed }` accumulated by
`calculatePathScores`. -/
structure Scores where
  good : Nat
  bad : Nat
  mixed : Nat
deriving DecidableEq

def zeroScores : Scores := ⟨0, 0, 0⟩

/-- `scores[chosenChoice.prediction]++` for a non-`none` prediction. -/
def bumpScore (s : Scores) : ChoicePrediction → Scores
  | ChoicePrediction.good => { s with good := s.good + 1 }
  | ChoicePrediction.bad => { s with bad := s.bad + 1 }
  | ChoicePrediction.mixed => { s with mixed := s.mixed + 1 }
  | ChoicePrediction.none => s

/-- One step of the forward summation loop of `calculatePathScores`
(`src/utils/storyUtils.ts` lines 95-106) for the adjacent pair
`(parentId, childId)`. -/
def scoreStep (story : Story) (parentId childId : String) (s : Scores) : Scores :=
  match List.lookup parentId story.nodes with
  | Option.none => s
  | some parentNode =>
    match parentNode.choices.find? (fun c => c.nextNodeId == some childId) with
    | Option.none => s
    | some chosenChoice =>
      if chosenChoice.prediction ≠ ChoicePrediction.none then
        bumpScore s chosenChoice.prediction
      else s

/-- The forward summation loop over the reconstructed path's adjacent pairs. -/
def scoreLoop (story : Story) : List String → Scores → Scores
  | a :: b :: rest, s => scoreLoop story (b :: rest) (scoreStep story a b s)
  | _, s => s

/-- `calculatePathScores` from `src/utils/storyUtils.ts` lines 73-109, with
fuel for the backward walk.  If the reconstructed path does not begin with
the start node the scores are all zero. -/
def calculatePathScores (story : Story) (targetNodeId : String)
    (parentMap : List (String × String)) (fuel : Nat) : Option Scores :=
  (pathLoop parentMap story.startNodeId (some targetNodeId) [] fuel).map
    fun path =>
      if path.head? = some story.startNodeId then scoreLoop story path zeroScores
      else zeroScores

/-- The deletion set of `handleDeleteNode` (`src/App.tsx` lines 250-266):
the visited set of the BFS from `nodeId`; the source's `nodesToDelete`
receives exactly the same insertions as `visited`. -/
def deleteSet (story : Story) (nodeId : String) : List String :=
  (bfsVisit story.nodes [nodeId] [nodeId] [] 1).2.1

/-- The per-choice rewrite of `handleDeleteNode` (`src/App.tsx` lines
276-281): a choice with a truthy target in the deletion set becomes an
unresolved, unexplored stub; every other choice is returned unchanged. -/
def deleteChoiceMap (del : List String) (c : Choice) : Choice :=
  match c.nextNodeId with
  | Option.none => c
  | some t =>
    if t ≠ "" ∧ del.contains t then
      { c with nextNodeId := Option.none, isChosen := false }
    else c

/-- `handleDeleteNode` from `src/App.tsx` lines 247-296 (the graph part, as
applied through `setStory`): a no-op when `nodeId` is the start node;
otherwise remove every node in the deletion set, null out (and mark
unexplored) every surviving choice whose truthy target is in the set, and
filter the set out of `endNodeIds`. -/
def deleteNode (story : Story) (nodeId : String) : Story :=
  if nodeId = story.startNodeId then story
  else
    let del := deleteSet story nodeId
    let updatedNodes := story.nodes.filterMap fun kv =>
      if del.contains kv.1 then Option.none
      else some (kv.1, { kv.2 with choices := kv.2.choices.map (deleteChoiceMap del) })
    { story with
      nodes := updatedNodes
      endNodeIds := story.endNodeIds.filter fun id => ! del.contains id }

/-- One resolved edge of the graph, as both traversals follow them: the
source node exists, the choice's target is truthy and the target node
exists. -/
def EdgeStep (nodes : List (String × StoryNode)) (u v : String) : Prop :=
  ∃ node, List.lookup u nodes = some node ∧
    ∃ c ∈ node.choices, c.nextNodeId = some v ∧ v ≠ "" ∧
      (List.lookup v nodes).isSome

/-- Reachability along resolved edges (reflexive-transitive closure of
`EdgeStep`). -/
def Reach (nodes : List (String × StoryNode)) (u v : String) : Prop :=
  Relation.ReflTransGen (EdgeStep nodes) u v

/-! ## ExportScreen: pagination, continuation markers, shuffle
(`src/components/ExportScreen.tsx`) -/

/-- The JavaScript whitespace class used by `String.prototype.trim`. -/
def isJsWhitespace (c : Char) : Bool :=
  c == ' ' || c == '\t' || c == '\n' || c == '\r' ||
  c == '\x0b' || c == '\x0c' || c.val == 0xA0 || c.val == 0x1680 ||
  (0x2000 ≤ c.val && c.val ≤ 0x200A) || c.val == 0x2028 || c.val == 0x2029 ||
  c.val == 0x202F || c.val == 0x205F || c.val == 0x3000 || c.val == 0xFEFF

/-- `String.prototype.trim`: drop leading and trailing whitespace. -/
def jsTrim (l : List Char) : List Char :=
  ((l.dropWhile isJsWhitespace).reverse.dropWhile isJsWhitespace).reverse

/-- `MAX_CHARS_PER_PAGE` (`ExportScreen.tsx` line 51). -/
def maxCharsPerPage : Nat := 1100

/-- The "space is too early" cutoff: the source compares the split point
against `MAX_CHARS_PER_PAGE * 0.8`; in IEEE-754 double arithmetic
`1100 * 0.8` is exactly `880`, so the comparison is `splitPoint < 880`. -/
def minSplitPoint : Nat := 880

/-- `remainingText.lastIndexOf(' ', bound)`: the largest index `≤ bound`
holding a space, scanning downward; `none` plays `-1`. -/
def lastSpaceAux (l : List Char) : Nat → Option Nat
  | 0 => if l[0]? = some ' ' then some 0 else Option.none
  | i + 1 => if l[i + 1]? = some ' ' then some (i + 1) else lastSpaceAux l i

theorem jsTrim_length_le (l : List Char) : (jsTrim l).length ≤ l.length := by
  unfold jsTrim
  calc ((l.dropWhile isJsWhitespace).reverse.dropWhile isJsWhitespace).reverse.length
      = ((l.dropWhile isJsWhitespace).reverse.dropWhile isJsWhitespace).length := by
        rw [List.length_reverse]
    _ ≤ (l.dropWhile isJsWhitespace).reverse.length :=
        (List.dropWhile_sublist _).length_le
    _ = (l.dropWhile isJsWhitespace).length := by rw [List.length_reverse]
    _ ≤ l.length := (List.dropWhile_sublist _).length_le

/-- The split index chosen by one iteration of the splitting loop
(`ExportScreen.tsx` lines 65-68). -/
def splitPointOf (remaining : List Char) : Nat :=
  match lastSpaceAux remaining maxCharsPerPage with
  | Option.none => maxCharsPerPage
  | some i => if i < minSplitPoint then maxCharsPerPage else i

theorem splitPointOf_pos (remaining : List Char) : 1 ≤ splitPointOf remaining := by
  unfold splitPointOf
  cases lastSpaceAux remaining maxCharsPerPage with
  | none => norm_num [maxCharsPerPage]
  | some i =>
    by_cases hi : i < minSplitPoint
    · simp only [if_pos hi]; norm_num [maxCharsPerPage]
    · simp only [if_neg hi]
      have : minSplitPoint ≤ i := Nat.le_of_not_lt hi
      calc (1 : Nat) ≤ minSplitPoint := by norm_num [minSplitPoint]
        _ ≤ i := this

/-- The splitting `while` loop of `splitTextIntoChunks`
(`ExportScreen.tsx` lines 58-71): find the last space at or before the
limit, hard-cut at the limit when there is none or it is too early, push
the chunk, and continue with the trimmed remainder. -/
def splitLoop (remaining : List Char) : List (List Char) :=
  if remaining.length = 0 then []
  else if remaining.length ≤ maxCharsPerPage then [remaining]
  else
    remaining.take (splitPointOf remaining) ::
      splitLoop (jsTrim (remaining.drop (splitPointOf remaining)))
termination_by remaining.length
decreasing_by
  rename_i _hlenzero _hbig
  have hsp : 1 ≤ splitPointOf remaining := splitPointOf_pos remaining
  calc (jsTrim (remaining.drop (splitPointOf remaining))).length
      ≤ (remaining.drop (splitPointOf remaining)).length := jsTrim_length_le _
    _ = remaining.length - splitPointOf remaining := List.length_drop _ _
    _ < remaining.length := by omega

/-- `splitTextIntoChunks` (`ExportScreen.tsx` lines 53-73): a text within
the limit is a single chunk; otherwise run the splitting loop. -/
def splitTextIntoChunks (text : List Char) : List (List Char) :=
  if text.length ≤ maxCharsPerPage then [text] else splitLoop text

/-- One printable page (`ExportScreen.tsx` `Page` type). -/
inductive Page where
  | cover (title : String) (imageUrl : String)
  | backCover (prompt : String)
  | node (node : StoryNode) (originalId : String) (dialogueChunk : List Char)
      (isFirstChunk : Bool) (isLastChunk : Bool)
deriving DecidableEq

def natChars (n : Nat) : List Char := (Nat.repr n).data

/-- The appended marker `\n\n...(Continued on page N)`. -/
def contOnText (n : Nat) : List Char :=
  "\n\n...(Continued on page ".data ++ natChars n ++ ")".data

/-- The prepended marker `(Continued from page N)...\n\n`. -/
def contFromText (n : Nat) : List Char :=
  "(Continued from page ".data ++ natChars n ++ ")...\n\n".data

/-- The physical pages of one node in logical order (`ExportScreen.tsx`
lines 83-98): each chunk becomes one page carrying first/last-chunk flags. -/
def nodeRun (story : Story) (nodeId : String) : List Page :=
  match List.lookup nodeId story.nodes with
  | Option.none => []
  | some node =>
    let dialogueChunks := splitTextIntoChunks node.dialogue
    dialogueChunks.enum.map fun p =>
      Page.node node nodeId p.2 (p.1 == 0) (p.1 == dialogueChunks.length - 1)

/-- The per-node page runs in ascending logical page order. -/
def storyRuns (story : Story) : List (List Page) :=
  let logicalPageMap := generatePageMap story.nodes story.startNodeId
  let sortedNodeEntries := List.insertionSort (fun a b => a.2 ≤ b.2) logicalPageMap
  sortedNodeEntries.map fun kv => nodeRun story kv.1

/-- The assembled sequence before continuation markers
(`ExportScreen.tsx` lines 75-98): cover, back cover, then every node's
chunk pages in logical order. -/
def tempPages (story : Story) : List Page :=
  Page.cover story.title story.coverImageUrl ::
    Page.backCover story.prompt :: (storyRuns story).flatten

/-- The continuation-marker pass (`ExportScreen.tsx` lines 101-113): append
`Continued on page index+2` to non-final chunks and prepend
`Continued from page index` to non-first chunks, from the current indices. -/
def addContinuations (pages : List Page) : List Page :=
  pages.enum.map fun ip =>
    match ip.2 with
    | Page.node n oid chunk first last =>
      let c1 := if last = false then chunk ++ contOnText (ip.1 + 2) else chunk
      let c2 := if first = false then contFromText ip.1 ++ c1 else c1
      Page.node n oid c2 first last
    | p => p

/-- The full initial layout (the `useEffect` of `ExportScreen.tsx`
lines 50-116). -/
def layoutPages (story : Story) : List Page :=
  addContinuations (tempPages story)

def physMapAux : List (Nat × Page) → List (String × Nat) → List (String × Nat)
  | [], m => m
  | ip :: rest, m =>
    match ip.2 with
    | Page.node _ oid _ true _ => physMapAux rest (mapSet m oid (ip.1 + 1))
    | _ => physMapAux rest m

/-- `physicalPageMap` (`ExportScreen.tsx` lines 118-126): node id of every
first chunk mapped to its 1-based physical position. -/
def physicalPageMap (pages : List Page) : List (String × Nat) :=
  physMapAux pages.enum []

/-- What the choice list renders for a choice
(`ExportScreen.tsx` line 273): `physicalPageMap.get(choice.nextNodeId || '')
|| '???'`. -/
inductive PageRef where
  | num (n : Nat)
  | placeholder
deriving DecidableEq

def renderChoiceRef (pages : List Page) (c : Choice) : PageRef :=
  match List.lookup (c.nextNodeId.getD "") (physicalPageMap pages) with
  | some n => if n ≠ 0 then PageRef.num n else PageRef.placeholder
  | Option.none => PageRef.placeholder

/-- The destructuring swap `[arr[i], arr[j]] = [arr[j], arr[i]]`. -/
def listSwap {α : Type} (l : List α) (i j : Nat) : List α :=
  match l[i]?, l[j]? with
  | some a, some b => (l.set i b).set j a
  | _, _ => l

/-- The Fisher-Yates loop of `shuffleArray` (`ExportScreen.tsx` lines
32-39), counting `i` down; the oracle draw at step `i` is `rand i % (i+1)`. -/
def fyAux {α : Type} (rand : Nat → Nat) : Nat → List α → List α
  | 0, l => l
  | i + 1, l => fyAux rand i (listSwap l (i + 1) (rand (i + 1) % (i + 2)))

def shuffleArray {α : Type} (rand : Nat → Nat) (l : List α) : List α :=
  fyAux rand (l.length - 1) l

/-- `pageGroups` update: append the page to its id's group, creating the
group at the end on first sight (`Map` insertion order). -/
def addToGroup (gs : List (String × List Page)) (k : String) (p : Page) :
    List (String × List Page) :=
  match gs with
  | [] => [(k, [p])]
  | (k', ps) :: rest =>
    if k' = k then (k', ps ++ [p]) :: rest else (k', ps) :: addToGroup rest k p

def buildGroupsAux : List (String × List Page) → List Page → List (String × List Page)
  | gs, [] => gs
  | gs, p :: ps =>
    match p with
    | Page.node _ oid _ _ _ => buildGroupsAux (addToGroup gs oid p) ps
    | _ => buildGroupsAux gs ps

/-- The grouping pass of `handleShuffle` (`ExportScreen.tsx` lines 135-142):
node pages of the slice after cover and back cover, grouped by originating
node id in first-appearance order (non-node pages are not grouped). -/
def buildGroups (content : List Page) : List (String × List Page) :=
  buildGroupsAux [] content

/-- `handleShuffle` (`ExportScreen.tsx` lines 128-157): no-op at three or
fewer pages or when the start node has no group; otherwise keep the first
two pages, pin the start group right after them, and flatten the uniformly
permuted remaining groups. -/
def handleShuffle (rand : Nat → Nat) (startNodeId : String)
    (pages : List Page) : List Page :=
  if pages.length ≤ 3 then pages
  else
    match pages with
    | p0 :: p1 :: content =>
      let pageGroups := buildGroups content
      match List.lookup startNodeId pageGroups with
      | Option.none => pages
      | some startPageGroup =>
        let otherGroups := (pageGroups.filter fun g => g.1 ≠ startNodeId).map Prod.snd
        let shuffledGroups := shuffleArray rand otherGroups
        p0 :: p1 :: (startPageGroup ++ shuffledGroups.flatten)
    | _ => pages

/-! ## Observation predicates -/

def isNodePage : Page → Bool
  | Page.node _ _ _ _ _ => true
  | _ => false

def isNodeOf (t : String) : Page → Bool
  | Page.node _ oid _ _ _ => oid == t
  | _ => false

def isFirstChunkOf (t : String) : Page → Bool
  | Page.node _ oid _ first _ => oid == t && first
  | _ => false

/-- 0-based position of the first chunk of node `t` in a page sequence. -/
def firstChunkIdx (pages : List Page) (t : String) : Option Nat :=
  pages.findIdx? (isFirstChunkOf t)

/-- The continuation markers at position `i` are correct: a non-final chunk
is physically followed at `i+1` by a further chunk of the same node and its
appended marker names page `i+2` (the 1-based position of that neighbour);
symmetrically for a non-first chunk and position `i` (1-based `i`). -/
def pageContOk (pages : List Page) (i : Nat) : Bool :=
  match pages[i]? with
  | some (Page.node _ oid chunk first last) =>
    (last ||
      ((match pages[i + 1]? with
        | some (Page.node _ oid2 _ first2 _) => oid2 == oid && !first2
        | _ => false) &&
        (contOnText (i + 2)).isSuffixOf chunk)) &&
    (first ||
      ((match i with
        | 0 => false
        | j + 1 =>
          match pages[j]? with
          | some (Page.node _ oid2 _ _ last2) => oid2 == oid && !last2
          | _ => false) &&
        (contFromText i).isPrefixOf chunk))
  | _ => true

/-- Every page's continuation markers are correct. -/
def ContinuationsCorrect (pages : List Page) : Prop :=
  ∀ i, i < pages.length → pageContOk pages i = true

/-- Every choice printed on a last chunk renders the 1-based physical
position of its target's first chunk, and the placeholder exactly when the
choice is unresolved or the target has no first chunk in the sequence. -/
def ChoiceRefsCorrect (pages : List Page) : Prop :=
  ∀ i, i < pages.length → ∀ node oid chunk first,
    pages[i]? = some (Page.node node oid chunk first true) →
    ∀ c ∈ node.choices,
      (∀ t, c.nextNodeId = some t → ∀ j, firstChunkIdx pages t = some j →
        renderChoiceRef pages c = PageRef.num (j + 1)) ∧
      (c.nextNodeId = Option.none → renderChoiceRef pages c = PageRef.placeholder) ∧
      (∀ t, c.nextNodeId = some t → firstChunkIdx pages t = Option.none →
        renderChoiceRef pages c = PageRef.placeholder)

/-- All pages of node `k` form one contiguous block (in the filter's order). -/
def Grouped (k : String) (l : List Page) : Prop :=
  ∃ pre post, l = pre ++ l.filter (isNodeOf k) ++ post ∧
    (∀ p ∈ pre, isNodeOf k p = false) ∧ (∀ p ∈ post, isNodeOf k p = false)

/-! ## Concrete example inputs -/

def mkChoice (cid : String) (target : Option String) (pred : ChoicePrediction) : Choice :=
  { id := cid, text := "go", nextNodeId := target, isChosen := true,
    prediction := pred, predictionRationale := "why" }

def mkNode (nid : String) (text : List Char) (cs : List Choice) : StoryNode :=
  { id := nid, dialogue := text, illustrationUrl := Option.none,
    cgImageUrl := Option.none, choices := cs }

def mkStory (nodes : List (String × StoryNode)) (start : String)
    (ends : List String) : Story :=
  { title := "t", coverImageUrl := "cover", prompt := "p", artStyle := "art",
    endingConditions := ⟨3, 3, 3⟩, nodes := nodes, startNodeId := start,
    endNodeIds := ends }

/-- A two-node story whose non-start node links back to the start node. -/
def cycleBackStory : Story :=
  mkStory
    [("s", mkNode "s" ['S'] [mkChoice "c1" (some "a") ChoicePrediction.good]),
     ("a", mkNode "a" ['A'] [mkChoice "c2" (some "s") ChoicePrediction.bad])]
    "s" ["a"]

/-- A story whose parent map contains a two-cycle not passing through the
start node: `a` and `b` point at each other while `s` is the root. -/
def orphanCycleStory : Story :=
  mkStory
    [("s", mkNode "s" ['S'] []),
     ("a", mkNode "a" ['A'] [mkChoice "c1" (some "b") ChoicePrediction.good]),
     ("b", mkNode "b" ['B'] [mkChoice "c2" (some "a") ChoicePrediction.bad])]
    "s" []

/-- A three-node chain `s → p → t`; the edge into `p` is uncounted
(`none`), the edge into `t` counts as `good`. -/
def chainStory : Story :=
  mkStory
    [("s", mkNode "s" ['S'] [mkChoice "c1" (some "p") ChoicePrediction.none]),
     ("p", mkNode "p" ['P'] [mkChoice "c2" (some "t") ChoicePrediction.good]),
     ("t", mkNode "t" ['T'] [])]
    "s" []

/-- A node carrying an illustration and a 1101-character text. -/
def illustratedLongNode : StoryNode :=
  { id := "n", dialogue := List.replicate 1101 'a',
    illustrationUrl := some "img", cgImageUrl := Option.none, choices := [] }

/-- The same 1101-character node without an illustration. -/
def plainLongNode : StoryNode :=
  { id := "n", dialogue := List.replicate 1101 'a',
    illustrationUrl := Option.none, cgImageUrl := Option.none, choices := [] }

/-- A story containing a node with the empty-string id and a start-node
choice targeting it. -/
def emptyIdStory : Story :=
  mkStory
    [("s", mkNode "s" ['S'] [mkChoice "c1" (some "") ChoicePrediction.good]),
     ("", mkNode "" ['E'] [])]
    "s" []

/-- Append `t` to the last element of a list of character lists (used to
express where trailing trimmed whitespace of a split remainder sits). -/
def updateLast (t : List Char) : List (List Char) → List (List Char)
  | [] => []
  | [w] => [w ++ t]
  | w :: w2 :: ws => w :: updateLast t (w2 :: ws)

/-- A 1201-character text: 1000 `'a'`s, one space, 200 `'b'`s.  The splitter
finds the space at index 1000 (at least 880, so it is used), and the space
is lost by `trim`. -/
def roundTripText : List Char :=
  List.replicate 1000 'a' ++ ' ' :: List.replicate 200 'b'

/-! ## Claim C1 (deletion never removes the start node) -/

/-- C1: the claim fails on the code.  In `cycleBackStory` the deleted node
`"a"` (distinct from the start node `"s"`) has a resolved choice back to the
start node; `handleDeleteNode`'s BFS collects the start node into the
deletion set and removes it, leaving the nodes record empty, so the
surviving mapping does not contain `startNodeId`. -/
theorem claim_c1_delete_removes_start :
    cycleBackStory.startNodeId = "s" ∧ ("a" : String) ≠ "s" ∧
    (deleteNode cycleBackStory "a").nodes = [] ∧
    List.lookup cycleBackStory.startNodeId (deleteNode cycleBackStory "a").nodes
      = Option.none := by
  have hnodes : (deleteNode cycleBackStory "a").nodes = [] := by
    simp [deleteNode, deleteSet, bfsVisit, newNodes, collectNew, cycleBackStory,
      mkStory, mkNode, mkChoice, mapSet, List.lookup]
  refine ⟨rfl, by decide, hnodes, ?_⟩
  rw [hnodes]
  rfl

/-! ## Claim C2 (termination of the backward score walk) -/

theorem pathLoop_orphanCycle_none :
    ∀ fuel acc,
      pathLoop (getParentMap orphanCycleStory) "s" (some "a") acc fuel = Option.none ∧
      pathLoop (getParentMap orphanCycleStory) "s" (some "b") acc fuel = Option.none := by
  have hpm : getParentMap orphanCycleStory = [("b", "a"), ("a", "b")] := by
    simp [getParentMap, orphanCycleStory, mkStory, mkNode, mkChoice, mapSet]
  intro fuel
  induction fuel with
  | zero => intro acc; exact ⟨rfl, rfl⟩
  | succ n ih =>
    intro acc
    rw [hpm]
    constructor
    · show pathLoop [("b", "a"), ("a", "b")] "s" (some "a") acc (n + 1) = Option.none
      simp only [pathLoop, List.lookup]
      norm_num
      have hb := (ih ("a" :: acc)).2
      rw [hpm] at hb
      simpa [List.lookup] using hb
    · simp only [pathLoop, List.lookup]
      norm_num
      have ha := (ih ("b" :: acc)).1
      rw [hpm] at ha
      simpa [List.lookup] using ha

/-- C2: the claim fails on the code.  In `orphanCycleStory` the parent map
built by `getParentMap` is `{b ↦ a, a ↦ b}`; the backward `while (currentId)`
walk of `calculatePathScores` from target `"a"` alternates between `"a"` and
`"b"` forever — it has no visited guard and never reaches the start node or
a parentless node.  In the fuel model: for every fuel the loop has not
exited, i.e. the source loop never terminates. -/
theorem claim_c2_scorer_diverges_on_cycle :
    ∀ fuel,
      calculatePathScores orphanCycleStory "a" (getParentMap orphanCycleStory) fuel
        = Option.none := by
  intro fuel
  unfold calculatePathScores
  rw [show orphanCycleStory.startNodeId = "s" from rfl,
    (pathLoop_orphanCycle_none fuel []).1]
  rfl

/-! ## Text splitter lemmas -/

theorem splitTextIntoChunks_small {text : List Char}
    (h : text.length ≤ maxCharsPerPage) : splitTextIntoChunks text = [text] :=
  if_pos h

theorem splitTextIntoChunks_big {text : List Char}
    (h : ¬ text.length ≤ maxCharsPerPage) : splitTextIntoChunks text = splitLoop text :=
  if_neg h

theorem splitLoop_zero {rem : List Char} (h : rem.length = 0) : splitLoop rem = [] := by
  rw [splitLoop, if_pos h]

theorem splitLoop_small {rem : List Char} (h0 : ¬ rem.length = 0)
    (hsmall : rem.length ≤ maxCharsPerPage) : splitLoop rem = [rem] := by
  rw [splitLoop, if_neg h0, if_pos hsmall]

theorem splitLoop_step {rem : List Char} (h0 : ¬ rem.length = 0)
    (hbig : ¬ rem.length ≤ maxCharsPerPage) :
    splitLoop rem =
      rem.take (splitPointOf rem) ::
        splitLoop (jsTrim (rem.drop (splitPointOf rem))) := by
  rw [splitLoop, if_neg h0, if_neg hbig]

theorem lastSpaceAux_le_bound {l : List Char} :
    ∀ {b i : Nat}, lastSpaceAux l b = some i → i ≤ b := by
  intro b
  induction b with
  | zero =>
    intro i h
    unfold lastSpaceAux at h
    split at h
    · cases h; exact Nat.le_refl 0
    · cases h
  | succ n ih =>
    intro i h
    unfold lastSpaceAux at h
    split at h
    · cases h; exact Nat.le_refl _
    · exact Nat.le_trans (ih h) (Nat.le_succ n)

theorem splitPointOf_le (rem : List Char) : splitPointOf rem ≤ maxCharsPerPage := by
  unfold splitPointOf
  cases hls : lastSpaceAux rem maxCharsPerPage with
  | none => exact Nat.le_refl _
  | some i =>
    show (if i < minSplitPoint then maxCharsPerPage else i) ≤ maxCharsPerPage
    by_cases hi : i < minSplitPoint
    · rw [if_pos hi]
    · rw [if_neg hi]
      exact lastSpaceAux_le_bound hls

theorem splitLoop_chunk_le :
    ∀ rem : List Char, ∀ c ∈ splitLoop rem, c.length ≤ maxCharsPerPage := by
  have main : ∀ n : Nat, ∀ rem : List Char, rem.length ≤ n →
      ∀ c ∈ splitLoop rem, c.length ≤ maxCharsPerPage := by
    intro n
    induction n with
    | zero =>
      intro rem hlen c hc
      rw [splitLoop_zero (Nat.le_zero.1 hlen)] at hc
      cases hc
    | succ n ih =>
      intro rem hlen c hc
      by_cases h0 : rem.length = 0
      · rw [splitLoop_zero h0] at hc; cases hc
      · by_cases hsmall : rem.length ≤ maxCharsPerPage
        · rw [splitLoop_small h0 hsmall] at hc
          rcases List.mem_singleton.1 hc with rfl
          exact hsmall
        · rw [splitLoop_step h0 hsmall] at hc
          rcases List.mem_cons.1 hc with rfl | hc
          · calc (rem.take (splitPointOf rem)).length
                = min (splitPointOf rem) rem.length := List.length_take _ _
              _ ≤ splitPointOf rem := Nat.min_le_left _ _
              _ ≤ maxCharsPerPage := splitPointOf_le rem
          · apply ih _ _ c hc
            have h1 : 1 ≤ splitPointOf rem := splitPointOf_pos rem
            calc (jsTrim (rem.drop (splitPointOf rem))).length
                ≤ (rem.drop (splitPointOf rem)).length := jsTrim_length_le _
              _ = rem.length - splitPointOf rem := List.length_drop _ _
              _ ≤ n := by omega
  intro rem
  exact main rem.length rem (Nat.le_refl _)

theorem lastSpaceAux_of_no_space {l : List Char} (h : ∀ i : Nat, l[i]? ≠ some ' ') :
    ∀ b, lastSpaceAux l b = Option.none := by
  intro b
  induction b with
  | zero => simp [lastSpaceAux, h 0]
  | succ n ih => simp [lastSpaceAux, h (n + 1), ih]

theorem lastSpaceAux_eq_some {l : List Char} {i : Nat} (hi : l[i]? = some ' ') :
    ∀ {b : Nat}, i ≤ b → (∀ j : Nat, i < j → j ≤ b → l[j]? ≠ some ' ') →
      lastSpaceAux l b = some i := by
  intro b
  induction b with
  | zero =>
    intro hib _
    have : i = 0 := Nat.le_zero.1 hib
    subst this
    simp [lastSpaceAux, hi]
  | succ n ih =>
    intro hib hafter
    by_cases htop : i = n + 1
    · subst htop
      simp [lastSpaceAux, hi]
    · have hin : i ≤ n := by omega
      have hns : l[n + 1]? ≠ some ' ' := hafter (n + 1) (by omega) (Nat.le_refl _)
      unfold lastSpaceAux
      rw [if_neg hns]
      exact ih hin fun j hj hjn => hafter j hj (Nat.le_trans hjn (Nat.le_succ n))

theorem replicate_a_no_space (n : Nat) :
    ∀ i : Nat, (List.replicate n 'a')[i]? ≠ some ' ' := by
  intro i
  rw [List.getElem?_replicate]
  by_cases hi : i < n
  · simp [hi]
  · simp [hi]

theorem splitPointOf_of_no_space {l : List Char}
    (h : lastSpaceAux l maxCharsPerPage = Option.none) :
    splitPointOf l = maxCharsPerPage := by
  unfold splitPointOf
  rw [h]

/-- Splitting 1101 copies of `'a'` (no space anywhere): a hard cut at 1100. -/
theorem split_replicate_1101 :
    splitTextIntoChunks (List.replicate 1101 'a') = [List.replicate 1100 'a', ['a']] := by
  have hlen : (List.replicate 1101 'a').length = 1101 := List.length_replicate _ _
  have hlen' : ¬ (List.replicate 1101 'a').length ≤ maxCharsPerPage := by
    rw [hlen]; norm_num [maxCharsPerPage]
  have hsp : splitPointOf (List.replicate 1101 'a') = maxCharsPerPage :=
    splitPointOf_of_no_space (lastSpaceAux_of_no_space (replicate_a_no_space 1101) _)
  have h1 : splitTextIntoChunks (List.replicate 1101 'a') = splitLoop (List.replicate 1101 'a') :=
    splitTextIntoChunks_big hlen'
  have h2 := @splitLoop_step (List.replicate 1101 'a') (by rw [hlen]; norm_num) hlen'
  have htake : (List.replicate 1101 'a').take (splitPointOf (List.replicate 1101 'a'))
      = List.replicate 1100 'a' := by
    rw [hsp]
    show (List.replicate 1101 'a').take 1100 = List.replicate 1100 'a'
    rw [List.take_replicate]
    have hmin : (1100 : Nat) ⊓ 1101 = 1100 := by norm_num
    rw [hmin]
  have hdrop : (List.replicate 1101 'a').drop (splitPointOf (List.replicate 1101 'a'))
      = ['a'] := by
    rw [hsp]
    show (List.replicate 1101 'a').drop 1100 = ['a']
    rw [List.drop_replicate]
    have hsub : (1101 : Nat) - 1100 = 1 := by norm_num
    rw [hsub, List.replicate_one]
  have htail : splitLoop (jsTrim ((List.replicate 1101 'a').drop
      (splitPointOf (List.replicate 1101 'a')))) = [['a']] := by
    rw [hdrop]
    show splitLoop (jsTrim ['a']) = [['a']]
    have : jsTrim ['a'] = ['a'] := by decide
    rw [this]
    exact splitLoop_small (by norm_num) (by norm_num [maxCharsPerPage])
  rw [h1, h2, htake, htail]

/-! ## Claim C7 (chunking limit) -/

/-- C7's counterexample: no pair of limits, a smaller one for illustrated
nodes and a larger one for others, is compatible with the code: the
splitter ignores the illustration entirely and hard-cuts 1100-character
chunks, which forces the illustrated limit up to at least 1100, while any
larger non-illustrated limit admits the 1101-character text that the code
nevertheless splits in two. -/
theorem claim_c7_counterexample :
    ¬ ∃ limitIll limitNoIll : Nat, limitIll < limitNoIll ∧
      ∀ node : StoryNode,
        (node.dialogue.length ≤
            (if node.illustrationUrl.isSome then limitIll else limitNoIll) →
          splitTextIntoChunks node.dialogue = [node.dialogue]) ∧
        (∀ c ∈ splitTextIntoChunks node.dialogue,
          c.length ≤ (if node.illustrationUrl.isSome then limitIll else limitNoIll)) := by
  rintro ⟨limitIll, limitNoIll, hlt, h⟩
  have hill := h illustratedLongNode
  have hno := h plainLongNode
  have hie : (if illustratedLongNode.illustrationUrl.isSome = true
      then limitIll else limitNoIll) = limitIll := rfl
  have hne : (if plainLongNode.illustrationUrl.isSome = true
      then limitIll else limitNoIll) = limitNoIll := rfl
  rw [hie] at hill
  rw [hne] at hno
  have hchunk : List.replicate 1100 'a' ∈
      splitTextIntoChunks illustratedLongNode.dialogue := by
    show List.replicate 1100 'a' ∈ splitTextIntoChunks (List.replicate 1101 'a')
    rw [split_replicate_1101]
    exact List.mem_cons_self _ _
  have h1100 : (1100 : Nat) ≤ limitIll := by
    have hle := hill.2 _ hchunk
    rwa [List.length_replicate] at hle
  have h1101 : plainLongNode.dialogue.length ≤ limitNoIll := by
    show (List.replicate 1101 'a').length ≤ limitNoIll
    rw [List.length_replicate]
    omega
  have hone := hno.1 h1101
  have htwo : splitTextIntoChunks (List.replicate 1101 'a') = [List.replicate 1101 'a'] := hone
  rw [split_replicate_1101] at htwo
  have hlens := congrArg List.length htwo
  rw [List.length_cons, List.length_cons, List.length_nil, List.length_cons,
    List.length_nil] at hlens
  exact absurd hlens (by norm_num)

/-- C7 (amended): the chunking limit is the single constant 1100 regardless
of illustration; a text within the limit is returned as exactly one chunk
equal to the text, and every produced chunk is within the limit. -/
theorem claim_c7_amended (text : List Char) :
    (text.length ≤ maxCharsPerPage → splitTextIntoChunks text = [text]) ∧
    (∀ c ∈ splitTextIntoChunks text, c.length ≤ maxCharsPerPage) := by
  constructor
  · exact fun h => splitTextIntoChunks_small h
  · intro c hc
    by_cases h : text.length ≤ maxCharsPerPage
    · rw [splitTextIntoChunks_small h] at hc
      rcases List.mem_singleton.1 hc with rfl
      exact h
    · rw [splitTextIntoChunks_big h] at hc
      exact splitLoop_chunk_le text c hc

/-- Witness for C7 (amended) at the two-character text `"hi"`. -/
theorem claim_c7_amended_witness :
    (['h', 'i'] : List Char).length ≤ maxCharsPerPage ∧
    splitTextIntoChunks ['h', 'i'] = [['h', 'i']] :=
  ⟨by decide, (claim_c7_amended ['h', 'i']).1 (by decide)⟩

/-! ## Claim C6 (chunk concatenation round-trip) -/

theorem dropWhile_replicate_not_ws {c : Char} (h : isJsWhitespace c = false) (n : Nat) :
    (List.replicate n c).dropWhile isJsWhitespace = List.replicate n c := by
  cases n with
  | zero => rfl
  | succ m =>
    rw [List.replicate_succ, List.dropWhile_cons, h]
    simp

theorem jsTrim_replicate_not_ws {c : Char} (h : isJsWhitespace c = false) (n : Nat) :
    jsTrim (List.replicate n c) = List.replicate n c := by
  unfold jsTrim
  rw [dropWhile_replicate_not_ws h, List.reverse_replicate,
    dropWhile_replicate_not_ws h, List.reverse_replicate]

theorem roundTripText_getElem_space : roundTripText[1000]? = some ' ' := by
  have h1 : (List.replicate 1000 'a').length ≤ 1000 :=
    Nat.le_of_eq (List.length_replicate _ _)
  unfold roundTripText
  rw [List.getElem?_append_right h1, List.length_replicate, Nat.sub_self,
    List.getElem?_cons_zero]

theorem roundTripText_getElem_after (j : Nat) (h1 : 1000 < j) (h2 : j ≤ 1100) :
    roundTripText[j]? ≠ some ' ' := by
  have hle : (List.replicate 1000 'a').length ≤ j := by
    rw [List.length_replicate]; omega
  unfold roundTripText
  rw [List.getElem?_append_right hle, List.length_replicate]
  rcases Nat.exists_eq_add_of_lt h1 with ⟨k, hk⟩
  have hjk : j - 1000 = k + 1 := by omega
  rw [hjk, List.getElem?_cons_succ]
  rw [List.getElem?_replicate]
  by_cases hkn : k < 200
  · simp [hkn]
  · simp [hkn]

theorem roundTripText_length : roundTripText.length = 1201 := by
  unfold roundTripText
  rw [List.length_append, List.length_replicate, List.length_cons, List.length_replicate]

theorem splitPointOf_roundTripText : splitPointOf roundTripText = 1000 := by
  have hls : lastSpaceAux roundTripText maxCharsPerPage = some 1000 :=
    @lastSpaceAux_eq_some roundTripText 1000 roundTripText_getElem_space
      maxCharsPerPage (by norm_num [maxCharsPerPage])
      (fun j hj hjb => roundTripText_getElem_after j hj hjb)
  unfold splitPointOf
  rw [hls]
  show (if 1000 < minSplitPoint then maxCharsPerPage else 1000) = 1000
  rw [if_neg (by norm_num [minSplitPoint])]

theorem split_roundTripText :
    splitTextIntoChunks roundTripText = [List.replicate 1000 'a', List.replicate 200 'b'] := by
  have hbig : ¬ roundTripText.length ≤ maxCharsPerPage := by
    rw [roundTripText_length]; norm_num [maxCharsPerPage]
  have h0 : ¬ roundTripText.length = 0 := by rw [roundTripText_length]; norm_num
  have htake : roundTripText.take (splitPointOf roundTripText) = List.replicate 1000 'a' := by
    rw [splitPointOf_roundTripText]
    show (List.replicate 1000 'a' ++ ' ' :: List.replicate 200 'b').take 1000
      = List.replicate 1000 'a'
    have hlen1000 : (List.replicate 1000 'a').length = 1000 := List.length_replicate _ _
    calc (List.replicate 1000 'a' ++ ' ' :: List.replicate 200 'b').take 1000
        = (List.replicate 1000 'a' ++ ' ' :: List.replicate 200 'b').take
            (List.replicate 1000 'a').length := by rw [hlen1000]
      _ = List.replicate 1000 'a' := List.take_left _ _
  have hdrop : roundTripText.drop (splitPointOf roundTripText)
      = ' ' :: List.replicate 200 'b' := by
    rw [splitPointOf_roundTripText]
    show (List.replicate 1000 'a' ++ ' ' :: List.replicate 200 'b').drop 1000
      = ' ' :: List.replicate 200 'b'
    have hlen1000 : (List.replicate 1000 'a').length = 1000 := List.length_replicate _ _
    calc (List.replicate 1000 'a' ++ ' ' :: List.replicate 200 'b').drop 1000
        = (List.replicate 1000 'a' ++ ' ' :: List.replicate 200 'b').drop
            (List.replicate 1000 'a').length := by rw [hlen1000]
      _ = ' ' :: List.replicate 200 'b' := List.drop_left _ _
  have htrim : jsTrim (' ' :: List.replicate 200 'b') = List.replicate 200 'b' := by
    unfold jsTrim
    rw [List.dropWhile_cons]
    rw [show isJsWhitespace ' ' = true from rfl]
    simp only [if_true]
    rw [dropWhile_replicate_not_ws (by decide), List.reverse_replicate,
      dropWhile_replicate_not_ws (by decide), List.reverse_replicate]
  have htail : splitLoop (jsTrim (roundTripText.drop (splitPointOf roundTripText)))
      = [List.replicate 200 'b'] := by
    rw [hdrop, htrim]
    exact splitLoop_small (by rw [List.length_replicate]; norm_num)
      (by rw [List.length_replicate]; norm_num [maxCharsPerPage])
  rw [splitTextIntoChunks_big hbig, splitLoop_step h0 hbig, htake, htail]

/-- C6's counterexample: the chunks of `roundTripText` concatenate to 1000
`'a'`s followed by 200 `'b'`s — the space at the boundary, removed by
`trim`, is lost, so the concatenation does not reconstruct the text. -/
theorem claim_c6_counterexample :
    (splitTextIntoChunks roundTripText).flatten ≠ roundTripText := by
  intro heq
  have hlen := congrArg List.length heq
  rw [split_roundTripText] at hlen
  rw [List.flatten_cons, List.flatten_cons, List.flatten_nil, List.append_nil,
    List.length_append, List.length_replicate, List.length_replicate,
    roundTripText_length] at hlen
  exact absurd hlen (by norm_num)

theorem updateLast_length (t : List Char) :
    ∀ ws : List (List Char), (updateLast t ws).length = ws.length := by
  intro ws
  induction ws with
  | nil => rfl
  | cons w ws ih =>
    cases ws with
    | nil => rfl
    | cons w2 ws2 =>
      show (w :: updateLast t (w2 :: ws2)).length = (w :: w2 :: ws2).length
      rw [List.length_cons, ih, List.length_cons]
      rfl

theorem updateLast_all_ws {t : List Char} (htw : ∀ c ∈ t, isJsWhitespace c = true) :
    ∀ ws : List (List Char), (∀ w ∈ ws, ∀ c ∈ w, isJsWhitespace c = true) →
      ∀ w ∈ updateLast t ws, ∀ c ∈ w, isJsWhitespace c = true := by
  intro ws
  induction ws with
  | nil => intro _ w hw; cases hw
  | cons w0 ws ih =>
    intro hall w hw
    cases ws with
    | nil =>
      rcases List.mem_singleton.1 hw with rfl
      intro c hc
      rcases List.mem_append.1 hc with hc | hc
      · exact hall w0 (List.mem_singleton.2 rfl) c hc
      · exact htw c hc
    | cons w2 ws2 =>
      rcases List.mem_cons.1 hw with rfl | hw
      · exact hall w (List.mem_cons_self _ _)
      · exact ih (fun x hx => hall x (List.mem_cons_of_mem _ hx)) w hw

theorem flatten_zipWith_updateLast (t : List Char) :
    ∀ (cs ws : List (List Char)), cs ≠ [] → ws.length = cs.length →
      (List.zipWith (· ++ ·) cs (updateLast t ws)).flatten
        = (List.zipWith (· ++ ·) cs ws).flatten ++ t := by
  intro cs
  induction cs with
  | nil => intro ws h; exact absurd rfl h
  | cons c cs ih =>
    intro ws _ hlen
    cases ws with
    | nil => simp at hlen
    | cons w ws2 =>
      cases cs with
      | nil =>
        cases ws2 with
        | nil =>
          show (List.zipWith (· ++ ·) [c] [w ++ t]).flatten
            = (List.zipWith (· ++ ·) [c] [w]).flatten ++ t
          simp [List.append_assoc]
        | cons x xs => simp at hlen
      | cons c2 cs2 =>
        cases ws2 with
        | nil => simp at hlen
        | cons x xs =>
          show (List.zipWith (· ++ ·) (c :: c2 :: cs2) (w :: updateLast t (x :: xs))).flatten
            = (List.zipWith (· ++ ·) (c :: c2 :: cs2) (w :: x :: xs)).flatten ++ t
          rw [List.zipWith_cons_cons, List.flatten_cons, List.zipWith_cons_cons,
            List.flatten_cons]
          rw [ih (x :: xs) (by simp) (by simpa using hlen)]
          simp [List.append_assoc]

theorem jsTrim_decomposition (l : List Char) :
    ∃ a b, l = a ++ jsTrim l ++ b ∧
      (∀ c ∈ a, isJsWhitespace c = true) ∧ (∀ c ∈ b, isJsWhitespace c = true) := by
  refine ⟨l.takeWhile isJsWhitespace,
    ((l.dropWhile isJsWhitespace).reverse.takeWhile isJsWhitespace).reverse, ?_, ?_, ?_⟩
  · have hm : l.dropWhile isJsWhitespace =
        jsTrim l ++ ((l.dropWhile isJsWhitespace).reverse.takeWhile isJsWhitespace).reverse := by
      have hsplit : (l.dropWhile isJsWhitespace).reverse
          = (l.dropWhile isJsWhitespace).reverse.takeWhile isJsWhitespace ++
            (l.dropWhile isJsWhitespace).reverse.dropWhile isJsWhitespace :=
        (List.takeWhile_append_dropWhile _ _).symm
      calc l.dropWhile isJsWhitespace
          = (l.dropWhile isJsWhitespace).reverse.reverse := (List.reverse_reverse _).symm
        _ = ((l.dropWhile isJsWhitespace).reverse.takeWhile isJsWhitespace ++
              (l.dropWhile isJsWhitespace).reverse.dropWhile isJsWhitespace).reverse := by
            rw [← hsplit]
        _ = ((l.dropWhile isJsWhitespace).reverse.dropWhile isJsWhitespace).reverse ++
              ((l.dropWhile isJsWhitespace).reverse.takeWhile isJsWhitespace).reverse :=
            List.reverse_append _ _
        _ = jsTrim l ++
              ((l.dropWhile isJsWhitespace).reverse.takeWhile isJsWhitespace).reverse := rfl
    calc l = l.takeWhile isJsWhitespace ++ l.dropWhile isJsWhitespace :=
          (List.takeWhile_append_dropWhile _ _).symm
      _ = l.takeWhile isJsWhitespace ++ (jsTrim l ++
            ((l.dropWhile isJsWhitespace).reverse.takeWhile isJsWhitespace).reverse) := by
          rw [← hm]
      _ = l.takeWhile isJsWhitespace ++ jsTrim l ++
            ((l.dropWhile isJsWhitespace).reverse.takeWhile isJsWhitespace).reverse := by
          rw [List.append_assoc]
  · intro c hc
    exact List.mem_takeWhile_imp hc
  · intro c hc
    rw [List.mem_reverse] at hc
    exact List.mem_takeWhile_imp hc

theorem splitLoop_roundtrip :
    ∀ rem : List Char, ∃ ws : List (List Char),
      ws.length = (splitLoop rem).length ∧
      (∀ w ∈ ws, ∀ c ∈ w, isJsWhitespace c = true) ∧
      (List.zipWith (· ++ ·) (splitLoop rem) ws).flatten = rem := by
  have main : ∀ n : Nat, ∀ rem : List Char, rem.length ≤ n →
      ∃ ws : List (List Char),
        ws.length = (splitLoop rem).length ∧
        (∀ w ∈ ws, ∀ c ∈ w, isJsWhitespace c = true) ∧
        (List.zipWith (· ++ ·) (splitLoop rem) ws).flatten = rem := by
    intro n
    induction n with
    | zero =>
      intro rem hlen
      have h0 : rem = [] := List.length_eq_zero.mp (Nat.le_zero.1 hlen)
      subst h0
      refine ⟨[], ?_, ?_, ?_⟩
      · rw [splitLoop_zero (show ([] : List Char).length = 0 from rfl)]
      · intro w hw; cases hw
      · rw [splitLoop_zero (show ([] : List Char).length = 0 from rfl)]
        rfl
    | succ n ih =>
      intro rem hlen
      by_cases h0 : rem.length = 0
      · have h0' : rem = [] := List.length_eq_zero.mp h0
        subst h0'
        refine ⟨[], ?_, ?_, ?_⟩
        · rw [splitLoop_zero (show ([] : List Char).length = 0 from rfl)]
        · intro w hw; cases hw
        · rw [splitLoop_zero (show ([] : List Char).length = 0 from rfl)]
          rfl
      · by_cases hsmall : rem.length ≤ maxCharsPerPage
        · refine ⟨[[]], by rw [splitLoop_small h0 hsmall]; rfl, ?_, ?_⟩
          · intro w hw
            rcases List.mem_singleton.1 hw with rfl
            intro c hc
            cases hc
          · rw [splitLoop_small h0 hsmall]
            show ((rem ++ []) :: []).flatten = rem
            simp
        · rw [splitLoop_step h0 hsmall]
          set c0 := rem.take (splitPointOf rem) with hc0
          set m := rem.drop (splitPointOf rem) with hm
          obtain ⟨a, b, hdec, ha, hb⟩ := jsTrim_decomposition m
          have hrecl : (jsTrim m).length ≤ n := by
            have h1 : 1 ≤ splitPointOf rem := splitPointOf_pos rem
            calc (jsTrim m).length ≤ m.length := jsTrim_length_le _
              _ = rem.length - splitPointOf rem := by rw [hm, List.length_drop]
              _ ≤ n := by omega
          obtain ⟨ws', hlen', hws', hflat'⟩ := ih (jsTrim m) hrecl
          have hrem : rem = c0 ++ m := by rw [hc0, hm, List.take_append_drop]
          cases hsp : splitLoop (jsTrim m) with
          | nil =>
            have hws0 : ws' = [] :=
              List.length_eq_zero.mp (by rw [hlen', hsp]; rfl)
            have hjnil : jsTrim m = [] := by
              rw [hsp, hws0] at hflat'
              simpa using hflat'.symm
            refine ⟨[a ++ b], ?_, ?_, ?_⟩
            · rfl
            · intro w hw
              rcases List.mem_singleton.1 hw with rfl
              intro c hc
              rcases List.mem_append.1 hc with hc | hc
              · exact ha c hc
              · exact hb c hc
            · show ((c0 ++ (a ++ b)) :: []).flatten = rem
              rw [hrem]
              conv_rhs => rw [hdec]
              rw [hjnil]
              simp
          | cons ch ct =>
            refine ⟨a :: updateLast b ws', ?_, ?_, ?_⟩
            · rw [List.length_cons, updateLast_length, hlen', hsp]
              rfl
            · intro w hw
              rcases List.mem_cons.1 hw with rfl | hw
              · exact ha
              · exact updateLast_all_ws hb ws' hws' w hw
            · rw [← hsp]
              rw [List.zipWith_cons_cons, List.flatten_cons]
              rw [flatten_zipWith_updateLast b (splitLoop (jsTrim m)) ws'
                  (by rw [hsp]; simp) hlen']
              rw [hflat']
              rw [hrem]
              conv_rhs => rw [hdec]
              simp [List.append_assoc]
  intro rem
  exact main rem.length rem (Nat.le_refl _)

/-- C6 (amended): concatenating the chunks in order reconstructs the
original text up to the whitespace removed at the chunk boundaries (and,
through the final trim, at the very end): there are whitespace-only
segments, one after each chunk, whose interleaving with the chunks is
exactly the original text.  In particular a text within the 1100-character
limit round-trips exactly. -/
theorem claim_c6_amended (text : List Char) :
    ∃ ws : List (List Char),
      ws.length = (splitTextIntoChunks text).length ∧
      (∀ w ∈ ws, ∀ c ∈ w, isJsWhitespace c = true) ∧
      (List.zipWith (· ++ ·) (splitTextIntoChunks text) ws).flatten = text := by
  by_cases h : text.length ≤ maxCharsPerPage
  · refine ⟨[[]], by rw [splitTextIntoChunks_small h]; rfl, ?_, ?_⟩
    · intro w hw
      rcases List.mem_singleton.1 hw with rfl
      intro c hc
      cases hc
    · rw [splitTextIntoChunks_small h]
      show ((text ++ []) :: []).flatten = text
      simp
  · rw [splitTextIntoChunks_big h]
    exact splitLoop_roundtrip text

/-! ## BFS invariants (shared by `generatePageMap` and `handleDeleteNode`) -/

theorem collectNew_nodup (nodes : List (String × StoryNode)) :
    ∀ (cs : List Choice) (visited : List String),
      (collectNew nodes cs visited).Nodup := by
  intro cs
  induction cs with
  | nil => intro visited; simp [collectNew]
  | cons c cs ih =>
    intro visited
    cases hn : c.nextNodeId with
    | none => simp only [collectNew, hn]; exact ih visited
    | some u =>
      simp only [collectNew, hn]
      split
      · refine List.Nodup.cons ?_ (ih (visited ++ [u]))
        intro hmem
        have := collectNew_not_visited hmem
        simp at this
      · exact ih visited

theorem collectNew_sound {nodes : List (String × StoryNode)} :
    ∀ {cs : List Choice} {visited : List String} {t : String},
      t ∈ collectNew nodes cs visited →
      ∃ c ∈ cs, c.nextNodeId = some t ∧ t ≠ "" ∧ (List.lookup t nodes).isSome := by
  intro cs
  induction cs with
  | nil => intro visited t h; simp [collectNew] at h
  | cons c cs ih =>
    intro visited t h
    cases hn : c.nextNodeId with
    | none =>
      simp only [collectNew, hn] at h
      obtain ⟨c', hc', hrest⟩ := ih h
      exact ⟨c', List.mem_cons_of_mem _ hc', hrest⟩
    | some u =>
      simp only [collectNew, hn] at h
      split at h
      · next hc =>
        rcases List.mem_cons.1 h with rfl | h
        · exact ⟨c, List.mem_cons_self _ _, hn, hc.1, hc.2.2⟩
        · obtain ⟨c', hc', hrest⟩ := ih h
          exact ⟨c', List.mem_cons_of_mem _ hc', hrest⟩
      · obtain ⟨c', hc', hrest⟩ := ih h
        exact ⟨c', List.mem_cons_of_mem _ hc', hrest⟩

theorem collectNew_complete {nodes : List (String × StoryNode)} :
    ∀ (cs : List Choice) (visited : List String) (c : Choice) (v : String),
      c ∈ cs → c.nextNodeId = some v → v ≠ "" → (List.lookup v nodes).isSome →
      v ∈ visited ++ collectNew nodes cs visited := by
  intro cs
  induction cs with
  | nil => intro visited c v hc; cases hc
  | cons c0 cs ih =>
    intro visited c v hc hnv hne hsome
    rcases List.mem_cons.1 hc with rfl | hc
    · simp only [collectNew, hnv]
      split
      · exact List.mem_append.2 (Or.inr (List.mem_cons_self _ _))
      · next hcnd =>
        have hvis : v ∈ visited := by
          by_contra hnv2
          exact hcnd ⟨hne,
            fun hcon => hnv2 ((contains_true_iff _ _).1 hcon), hsome⟩
        exact List.mem_append.2 (Or.inl hvis)
    · cases hn0 : c0.nextNodeId with
      | none =>
        simp only [collectNew, hn0]
        exact ih visited c v hc hnv hne hsome
      | some u =>
        simp only [collectNew, hn0]
        split
        · have := ih (visited ++ [u]) c v hc hnv hne hsome
          rw [List.append_assoc] at this
          simpa using this
        · exact ih visited c v hc hnv hne hsome

theorem newNodes_nodup (nodes : List (String × StoryNode)) (nodeId : String)
    (visited : List String) : (newNodes nodes nodeId visited).Nodup := by
  unfold newNodes
  cases List.lookup nodeId nodes with
  | none => exact List.nodup_nil
  | some node => exact collectNew_nodup nodes node.choices visited

theorem newNodes_sound {nodes : List (String × StoryNode)} {nodeId : String}
    {visited : List String} {t : String}
    (h : t ∈ newNodes nodes nodeId visited) : EdgeStep nodes nodeId t := by
  unfold newNodes at h
  cases hl : List.lookup nodeId nodes with
  | none => rw [hl] at h; cases h
  | some node =>
    rw [hl] at h
    obtain ⟨c, hc, hrest⟩ := collectNew_sound h
    exact ⟨node, hl, c, hc, hrest⟩

theorem newNodes_complete {nodes : List (String × StoryNode)} {nodeId : String}
    {v : String} (visited : List String) (h : EdgeStep nodes nodeId v) :
    v ∈ visited ++ newNodes nodes nodeId visited := by
  obtain ⟨node, hl, c, hc, hnv, hne, hsome⟩ := h
  unfold newNodes
  rw [hl]
  exact collectNew_complete node.choices visited c v hc hnv hne hsome

/-- The complete induction invariant of the shared BFS loop: starting from a
well-formed state, the final page map and visited set are well formed, the
visited set is closed under resolved edges, contains only nodes reachable
from `root`, only grows, and the page map extends the initial one with
counter-consecutive values. -/
theorem bfsVisit_invariant (nodes : List (String × StoryNode)) (root : String) :
    ∀ (queue visited : List String) (pm : List (String × Nat)) (counter : Nat),
      visited.Nodup →
      List.Perm (pm.map Prod.fst ++ queue) visited →
      counter = pm.length + 1 →
      pm.map Prod.snd = List.range' 1 pm.length →
      (∀ u ∈ visited, u ∉ queue → ∀ v, EdgeStep nodes u v → v ∈ visited) →
      (∀ v ∈ visited, Reach nodes root v) →
      (∀ v ∈ visited, v = root ∨ (List.lookup v nodes).isSome) →
      (bfsVisit nodes queue visited pm counter).2.1.Nodup ∧
      List.Perm ((bfsVisit nodes queue visited pm counter).1.map Prod.fst)
        (bfsVisit nodes queue visited pm counter).2.1 ∧
      (bfsVisit nodes queue visited pm counter).2.2 =
        (bfsVisit nodes queue visited pm counter).1.length + 1 ∧
      (bfsVisit nodes queue visited pm counter).1.map Prod.snd =
        List.range' 1 (bfsVisit nodes queue visited pm counter).1.length ∧
      (∀ u ∈ (bfsVisit nodes queue visited pm counter).2.1, ∀ v, EdgeStep nodes u v →
        v ∈ (bfsVisit nodes queue visited pm counter).2.1) ∧
      (∀ v ∈ (bfsVisit nodes queue visited pm counter).2.1, Reach nodes root v) ∧
      (∀ v ∈ (bfsVisit nodes queue visited pm counter).2.1,
        v = root ∨ (List.lookup v nodes).isSome) ∧
      (∀ v ∈ visited, v ∈ (bfsVisit nodes queue visited pm counter).2.1) ∧
      (∃ delta, (bfsVisit nodes queue visited pm counter).1 = pm ++ delta) := by
  intro queue visited pm counter
  induction queue, visited, pm, counter using bfsVisit.induct nodes with
  | case1 visited pm counter =>
    intro hnodup hperm hcounter hvals hclosed hsound hkeys
    rw [bfsVisit]
    refine ⟨hnodup, ?_, hcounter, hvals, ?_, hsound, hkeys, fun v hv => hv, ⟨[], by simp⟩⟩
    · simpa using hperm
    · intro u hu v he
      exact hclosed u hu (by simp) v he
  | case2 nodeId rest visited pm counter adds ih =>
    intro hnodup hperm hcounter hvals hclosed hsound hkeys
    rw [bfsVisit]
    have hadds : adds = newNodes nodes nodeId visited := rfl
    have hANodup : adds.Nodup := newNodes_nodup nodes nodeId visited
    have hAfresh : ∀ t ∈ adds, t ∉ visited := fun t ht => newNodes_not_visited ht
    have hnodeIdVisited : nodeId ∈ visited :=
      hperm.mem_iff.mp (List.mem_append.2 (Or.inr (List.mem_cons_self _ _)))
    have hqnodup : (pm.map Prod.fst ++ nodeId :: rest).Nodup := hperm.symm.nodup hnodup
    have hnIdNotPm : nodeId ∉ pm.map Prod.fst := by
      rw [List.nodup_append] at hqnodup
      intro hmem
      exact hqnodup.2.2 hmem (List.mem_cons_self _ _)
    have hmapset : mapSet pm nodeId counter = pm ++ [(nodeId, counter)] :=
      mapSet_eq_append pm nodeId counter hnIdNotPm
    have hnodup' : (visited ++ adds).Nodup := by
      rw [List.nodup_append]
      exact ⟨hnodup, hANodup, fun a ha hb => hAfresh a hb ha⟩
    have hperm' : List.Perm ((mapSet pm nodeId counter).map Prod.fst ++ (rest ++ adds))
        (visited ++ adds) := by
      rw [hmapset, List.map_append]
      have heq : (pm.map Prod.fst ++ [(nodeId, counter)].map Prod.fst) ++ (rest ++ adds)
          = (pm.map Prod.fst ++ nodeId :: rest) ++ adds := by
        simp [List.append_assoc]
      rw [heq]
      exact hperm.append_right adds
    have hcounter' : counter + 1 = (mapSet pm nodeId counter).length + 1 := by
      rw [hmapset, List.length_append]
      simp [hcounter]
    have hvals' : (mapSet pm nodeId counter).map Prod.snd =
        List.range' 1 (mapSet pm nodeId counter).length := by
      rw [hmapset, List.map_append, List.length_append, hvals]
      simp only [List.map_cons, List.map_nil, List.length_cons, List.length_nil]
      rw [show pm.length + (0 + 1) = pm.length + 1 from by omega]
      rw [List.range'_1_concat]
      rw [hcounter]
      rw [Nat.add_comm 1 pm.length]
    have hclosed' : ∀ u ∈ visited ++ adds, u ∉ rest ++ adds →
        ∀ v, EdgeStep nodes u v → v ∈ visited ++ adds := by
      intro u hu hnq v he
      rcases List.mem_append.1 hu with hu | hu
      · by_cases hid : u = nodeId
        · subst hid
          exact newNodes_complete visited he
        · have hnq' : u ∉ nodeId :: rest := by
            intro hmem
            rcases List.mem_cons.1 hmem with h | h
            · exact hid h
            · exact hnq (List.mem_append.2 (Or.inl h))
          exact List.mem_append.2 (Or.inl (hclosed u hu hnq' v he))
      · exact absurd (List.mem_append.2 (Or.inr hu)) hnq
    have hsound' : ∀ v ∈ visited ++ adds, Reach nodes root v := by
      intro v hv
      rcases List.mem_append.1 hv with hv | hv
      · exact hsound v hv
      · exact Relation.ReflTransGen.tail (hsound nodeId hnodeIdVisited) (newNodes_sound hv)
    have hkeys' : ∀ v ∈ visited ++ adds, v = root ∨ (List.lookup v nodes).isSome := by
      intro v hv
      rcases List.mem_append.1 hv with hv | hv
      · exact hkeys v hv
      · exact Or.inr (newNodes_mem_keys hv)
    obtain ⟨f1, f2, f3, f4, f5, f6, f7, f8, f9⟩ :=
      ih hnodup' hperm' hcounter' hvals' hclosed' hsound' hkeys'
    refine ⟨f1, f2, f3, f4, f5, f6, f7, ?_, ?_⟩
    · intro v hv
      exact f8 v (List.mem_append.2 (Or.inl hv))
    · obtain ⟨delta, hdelta⟩ := f9
      exact ⟨(nodeId, counter) :: delta, by rw [hdelta, hmapset, List.append_assoc]; rfl⟩

/-- Completeness of a closed visited set: everything reachable from a
member is a member. -/
theorem reach_subset_closed {nodes : List (String × StoryNode)} {W : List String}
    (hclosed : ∀ u ∈ W, ∀ v, EdgeStep nodes u v → v ∈ W) {root v : String}
    (hroot : root ∈ W) (h : Reach nodes root v) : v ∈ W := by
  induction h with
  | refl => exact hroot
  | tail _ he ih => exact hclosed _ ih _ he

theorem mem_keys_lookup_isSome {α : Type} {l : List (String × α)} {k : String}
    (h : k ∈ l.map Prod.fst) : (List.lookup k l).isSome := by
  induction l with
  | nil => simp at h
  | cons p rest ih =>
    obtain ⟨k', v'⟩ := p
    by_cases hk : k = k'
    · subst hk
      simp [List.lookup]
    · simp only [List.map_cons, List.mem_cons] at h
      rcases h with h | h
      · exact absurd h hk
      · simp only [List.lookup]
        rw [show (k == k') = false from by simp [hk]]
        exact ih h

theorem nodup_lookup_eq {α : Type} {l : List (String × α)} {k : String} {v : α}
    (hnd : (l.map Prod.fst).Nodup) (h : (k, v) ∈ l) : List.lookup k l = some v := by
  induction l with
  | nil => cases h
  | cons p rest ih =>
    obtain ⟨k', v'⟩ := p
    simp only [List.map_cons] at hnd
    have hnd' : (rest.map Prod.fst).Nodup := (List.nodup_cons.1 hnd).2
    rcases List.mem_cons.1 h with heq | h2
    · rw [show k = k' from congrArg Prod.fst heq, show v = v' from congrArg Prod.snd heq]
      simp [List.lookup]
    · have hk : k ≠ k' := by
        intro hkk
        subst hkk
        exact (List.nodup_cons.1 hnd).1 (List.mem_map.2 ⟨(k, v), h2, rfl⟩)
      simp only [List.lookup]
      rw [show (k == k') = false from by simp [hk]]
      exact ih hnd' h2

/-- The orphan entries: each id tagged with the continuing counter. -/
def orphTag (counter : Nat) : List String → List (String × Nat)
  | [] => []
  | o :: os => (o, counter) :: orphTag (counter + 1) os

theorem orphTag_map_fst : ∀ (os : List String) (c : Nat), (orphTag c os).map Prod.fst = os := by
  intro os
  induction os with
  | nil => intro c; rfl
  | cons o os ih =>
    intro c
    show o :: (orphTag (c + 1) os).map Prod.fst = o :: os
    rw [ih]

theorem orphTag_map_snd : ∀ (os : List String) (c : Nat),
    (orphTag c os).map Prod.snd = List.range' c os.length := by
  intro os
  induction os with
  | nil => intro c; rfl
  | cons o os ih =>
    intro c
    show c :: (orphTag (c + 1) os).map Prod.snd = List.range' c (os.length + 1)
    rw [ih, List.range'_succ]

theorem orphTag_mem : ∀ (os : List String) (c : Nat) (k : String) (n : Nat),
    (k, n) ∈ orphTag c os ↔ ∃ i, os[i]? = some k ∧ n = c + i := by
  intro os
  induction os with
  | nil =>
    intro c k n
    constructor
    · intro h; cases h
    · rintro ⟨i, hi, _⟩; cases hi
  | cons o os ih =>
    intro c k n
    constructor
    · intro h
      rcases List.mem_cons.1 h with heq | h2
      · have hk : k = o := congrArg Prod.fst heq
        have hn : n = c := congrArg Prod.snd heq
        subst hk
        exact ⟨0, by simp, by omega⟩
      · obtain ⟨i, hi, hn⟩ := (ih (c + 1) k n).1 h2
        exact ⟨i + 1, by simpa using hi, by omega⟩
    · rintro ⟨i, hi, hn⟩
      cases i with
      | zero =>
        have hko : o = k := by simpa using hi
        subst hko
        have hnc : n = c := by omega
        subst hnc
        exact List.mem_cons_self _ _
      | succ j =>
        apply List.mem_cons_of_mem
        exact (ih (c + 1) k n).2 ⟨j, by simpa using hi, by omega⟩

/-- Closed form of the orphan-appending loop: each orphan id is appended
with the counter continuing from `counter`. -/
theorem appendOrphans_eq :
    ∀ (os : List String) (pm : List (String × Nat)) (counter : Nat),
      (∀ o ∈ os, o ∉ pm.map Prod.fst) → os.Nodup →
      appendOrphans pm counter os = pm ++ orphTag counter os := by
  intro os
  induction os with
  | nil =>
    intro pm counter _ _
    simp [appendOrphans, orphTag]
  | cons o os ih =>
    intro pm counter hdisj hnd
    show appendOrphans (mapSet pm o counter) (counter + 1) os = _
    rw [mapSet_eq_append pm o counter (hdisj o (List.mem_cons_self _ _))]
    rw [ih (pm ++ [(o, counter)]) (counter + 1) ?fresh (List.nodup_cons.1 hnd).2]
    case fresh =>
      intro o2 ho2
      rw [List.map_append]
      simp only [List.mem_append, List.map_cons, List.map_nil]
      rintro (h | h)
      · exact hdisj o2 (List.mem_cons_of_mem _ ho2) h
      · have : o2 = o := by simpa using h
        subst this
        exact (List.nodup_cons.1 hnd).1 ho2
    rw [List.append_assoc]
    rfl

/-! ## Claim C3 (page numbering) -/

/-- C3: `generatePageMap` returns the empty mapping when the start node is
absent; otherwise (for a record with unique keys, as `Record` guarantees)
it maps the start node to page 1, assigns exactly one number to every node
(keys of the result are exactly the node ids, without duplicates; the
numbers are `1..n` in order, so the traversal terminates with one entry per
node even on cyclic graphs), gives every node unreachable from the root a
greater number than every reachable node, and orders the unreachable nodes
among themselves by ascending lexicographic id.  Determinism is inherent:
the embedding is a pure function of its arguments, as is the source, which
draws no randomness.  Reachability is along resolved (truthy, existing
target) choice edges from the start node. -/
theorem claim_c3_page_numbering (nodes : List (String × StoryNode)) (startNodeId : String)
    (hnd : (nodes.map Prod.fst).Nodup) :
    ((List.lookup startNodeId nodes).isSome = false →
      generatePageMap nodes startNodeId = []) ∧
    ((List.lookup startNodeId nodes).isSome = true →
      List.lookup startNodeId (generatePageMap nodes startNodeId) = some 1 ∧
      ((generatePageMap nodes startNodeId).map Prod.fst).Nodup ∧
      (∀ k, k ∈ (generatePageMap nodes startNodeId).map Prod.fst ↔
        k ∈ nodes.map Prod.fst) ∧
      (generatePageMap nodes startNodeId).map Prod.snd
        = List.range' 1 nodes.length ∧
      (∀ k₁ n₁ k₂ n₂, (k₁, n₁) ∈ generatePageMap nodes startNodeId →
        (k₂, n₂) ∈ generatePageMap nodes startNodeId →
        Reach nodes startNodeId k₁ → ¬ Reach nodes startNodeId k₂ → n₁ < n₂) ∧
      (∀ k₁ n₁ k₂ n₂, (k₁, n₁) ∈ generatePageMap nodes startNodeId →
        (k₂, n₂) ∈ generatePageMap nodes startNodeId →
        ¬ Reach nodes startNodeId k₁ → ¬ Reach nodes startNodeId k₂ →
        k₁ < k₂ → n₁ < n₂)) := by
  constructor
  · intro habs
    rw [generatePageMap, if_neg (by rw [habs]; exact Bool.false_ne_true)]
  · intro hstart
    set s := startNodeId
    set adds0 := newNodes nodes s [s] with hadds0
    have hstep : bfsVisit nodes [s] [s] [] 1
        = bfsVisit nodes adds0 ([s] ++ adds0) [(s, 1)] 2 := by
      rw [bfsVisit]
      rfl
    have hA0nodup : adds0.Nodup := newNodes_nodup nodes s [s]
    have hA0fresh : ∀ t ∈ adds0, t ∉ [s] := fun t ht => newNodes_not_visited ht
    have inv := bfsVisit_invariant nodes s adds0 ([s] ++ adds0) [(s, 1)] 2
      (by
        rw [List.nodup_append]
        exact ⟨List.nodup_singleton s, hA0nodup, fun a ha hb => hA0fresh a hb ha⟩)
      (by simp)
      (by simp)
      (by simp)
      (by
        intro u hu hnq v he
        rcases List.mem_append.1 hu with hu | hu
        · have : u = s := by simpa using hu
          subst this
          exact newNodes_complete [s] he
        · exact absurd hu hnq)
      (by
        intro v hv
        rcases List.mem_append.1 hv with hv | hv
        · have : v = s := by simpa using hv
          subst this
          exact Relation.ReflTransGen.refl
        · exact Relation.ReflTransGen.tail Relation.ReflTransGen.refl (newNodes_sound hv))
      (by
        intro v hv
        rcases List.mem_append.1 hv with hv | hv
        · exact Or.inl (by simpa using hv)
        · exact Or.inr (newNodes_mem_keys hv))
    rw [← hstep] at inv
    obtain ⟨f1, f2, f3, f4, f5, f6, f7, f8, f9⟩ := inv
    set r := bfsVisit nodes [s] [s] [] 1 with hr
    set pmB := r.1 with hpmB
    set vis := r.2.1 with hvis
    have hsvis : s ∈ vis := f8 s (by simp)
    have hvisReach : ∀ v, v ∈ vis ↔ Reach nodes s v := by
      intro v
      exact ⟨f6 v, fun h => reach_subset_closed f5 hsvis h⟩
    have hvisKeys : ∀ v ∈ vis, v ∈ nodes.map Prod.fst := by
      intro v hv
      rcases f7 v hv with rfl | hsome
      · exact lookup_isSome_mem_keys hstart
      · exact lookup_isSome_mem_keys hsome
    have hpmNodup : (pmB.map Prod.fst).Nodup := f2.symm.nodup f1
    have hpmkeys_iff : ∀ k, k ∈ pmB.map Prod.fst ↔ Reach nodes s k := by
      intro k
      rw [f2.mem_iff]
      exact hvisReach k
    -- the orphan list
    set O := List.insertionSort (· ≤ ·)
      ((nodes.map Prod.fst).filter fun k => ! (List.lookup k pmB).isSome) with hO
    have hOmem : ∀ k, k ∈ O ↔ k ∈ nodes.map Prod.fst ∧ k ∉ pmB.map Prod.fst := by
      intro k
      rw [hO, (List.perm_insertionSort _ _).mem_iff, List.mem_filter]
      constructor
      · rintro ⟨hk, hf⟩
        refine ⟨hk, fun hmem => ?_⟩
        rw [Bool.not_eq_true', Bool.eq_false_iff] at hf
        exact hf (mem_keys_lookup_isSome hmem)
      · rintro ⟨hk, hf⟩
        refine ⟨hk, ?_⟩
        rw [Bool.not_eq_true', Bool.eq_false_iff]
        intro hsome
        exact hf (lookup_isSome_mem_keys hsome)
    have hONodup : O.Nodup :=
      (List.perm_insertionSort _ _).symm.nodup (List.Nodup.filter _ hnd)
    have hOSorted : List.Sorted (· ≤ ·) O := List.sorted_insertionSort _ _
    have hOdisj : ∀ o ∈ O, o ∉ pmB.map Prod.fst := fun o ho => ((hOmem o).1 ho).2
    have hunfold : generatePageMap nodes s = appendOrphans pmB r.2.2 O := by
      rw [generatePageMap, if_pos hstart]
    have horph : appendOrphans pmB r.2.2 O = pmB ++ orphTag r.2.2 O :=
      appendOrphans_eq O pmB r.2.2 hOdisj hONodup
    set m := generatePageMap nodes s with hm
    have hmeq : m = pmB ++ orphTag r.2.2 O := hunfold.trans horph
    have hmkeys : m.map Prod.fst = pmB.map Prod.fst ++ O := by
      rw [hmeq, List.map_append, orphTag_map_fst]
    have hmkeys_nodup : (m.map Prod.fst).Nodup := by
      rw [hmkeys, List.nodup_append]
      exact ⟨hpmNodup, hONodup, fun a ha hb => ((hOmem a).1 hb).2 ha⟩
    have hmkeys_iff : ∀ k, k ∈ m.map Prod.fst ↔ k ∈ nodes.map Prod.fst := by
      intro k
      rw [hmkeys, List.mem_append]
      constructor
      · rintro (h | h)
        · exact hvisKeys k (f2.mem_iff.1 h)
        · exact ((hOmem k).1 h).1
      · intro hk
        by_cases hin : k ∈ pmB.map Prod.fst
        · exact Or.inl hin
        · exact Or.inr ((hOmem k).2 ⟨hk, hin⟩)
    have hmperm : List.Perm (m.map Prod.fst) (nodes.map Prod.fst) :=
      (List.perm_ext_iff_of_nodup hmkeys_nodup hnd).mpr hmkeys_iff
    have hmlen : m.length = nodes.length := by
      have h1 := hmperm.length_eq
      rwa [List.length_map, List.length_map] at h1
    have hOlen : pmB.length + O.length = nodes.length := by
      have := congrArg List.length hmkeys
      rw [List.length_map, List.length_append, List.length_map, hmlen] at this
      omega
    have hmvals : m.map Prod.snd = List.range' 1 nodes.length := by
      rw [hmeq, List.map_append, f4, orphTag_map_snd, f3]
      rw [show pmB.length + 1 = 1 + pmB.length from Nat.add_comm _ _]
      have hra := List.range'_append 1 pmB.length O.length 1
      rw [Nat.one_mul] at hra
      rw [hra]
      rw [show O.length + pmB.length = nodes.length from by omega]
    -- membership in the orphan part
    have hmem_m : ∀ k n, (k, n) ∈ m →
        (k, n) ∈ pmB ∨ ∃ i, O[i]? = some k ∧ n = r.2.2 + i := by
      intro k n hkn
      rw [hmeq] at hkn
      rcases List.mem_append.1 hkn with h | h
      · exact Or.inl h
      · exact Or.inr ((orphTag_mem O r.2.2 k n).1 h)
    have hpm_val_lt : ∀ k n, (k, n) ∈ pmB → n < r.2.2 := by
      intro k n hkn
      have hmm : n ∈ pmB.map Prod.snd := List.mem_map.2 ⟨(k, n), hkn, rfl⟩
      rw [f4] at hmm
      have h2 := (List.mem_range'_1.1 hmm).2
      omega
    refine ⟨?_, hmkeys_nodup, hmkeys_iff, hmvals, ?_, ?_⟩
    · -- start maps to 1
      obtain ⟨delta, hdelta⟩ := f9
      have hs1pm : (s, 1) ∈ pmB := by
        rw [hdelta]
        exact List.mem_append.2 (Or.inl (List.mem_cons_self _ _))
      have hs1 : (s, 1) ∈ m := by
        rw [hmeq]
        exact List.mem_append.2 (Or.inl hs1pm)
      exact nodup_lookup_eq hmkeys_nodup hs1
    · -- reachable before orphans
      intro k₁ n₁ k₂ n₂ h₁ h₂ hreach₁ hreach₂
      have hk₁pm : (k₁, n₁) ∈ pmB := by
        rcases hmem_m k₁ n₁ h₁ with h | ⟨i, hOi, _⟩
        · exact h
        · exfalso
          have hk₁O : k₁ ∈ O := List.getElem?_mem hOi
          exact ((hOmem k₁).1 hk₁O).2 ((hpmkeys_iff k₁).2 hreach₁)
      rcases hmem_m k₂ n₂ h₂ with h | ⟨i, hOi, hn₂⟩
      · exact absurd ((hpmkeys_iff k₂).1 (List.mem_map.2 ⟨(k₂, n₂), h, rfl⟩)) hreach₂
      · have := hpm_val_lt k₁ n₁ hk₁pm
        omega
    · -- orphans ascending by id
      intro k₁ n₁ k₂ n₂ h₁ h₂ hreach₁ hreach₂ hlt
      have horph₁ : ∃ i, O[i]? = some k₁ ∧ n₁ = r.2.2 + i := by
        rcases hmem_m k₁ n₁ h₁ with h | h
        · exact absurd ((hpmkeys_iff k₁).1 (List.mem_map.2 ⟨(k₁, n₁), h, rfl⟩)) hreach₁
        · exact h
      have horph₂ : ∃ i, O[i]? = some k₂ ∧ n₂ = r.2.2 + i := by
        rcases hmem_m k₂ n₂ h₂ with h | h
        · exact absurd ((hpmkeys_iff k₂).1 (List.mem_map.2 ⟨(k₂, n₂), h, rfl⟩)) hreach₂
        · exact h
      obtain ⟨i₁, hOi₁, hn₁⟩ := horph₁
      obtain ⟨i₂, hOi₂, hn₂⟩ := horph₂
      have hi₁lt : i₁ < O.length := by
        by_contra hcon
        rw [List.getElem?_eq_none (Nat.le_of_not_lt hcon)] at hOi₁
        cases hOi₁
      have hi₂lt : i₂ < O.length := by
        by_contra hcon
        rw [List.getElem?_eq_none (Nat.le_of_not_lt hcon)] at hOi₂
        cases hOi₂
      have hg₁ : O.get ⟨i₁, hi₁lt⟩ = k₁ := by
        have := List.getElem?_eq_getElem hi₁lt
        rw [this] at hOi₁
        simpa using hOi₁
      have hg₂ : O.get ⟨i₂, hi₂lt⟩ = k₂ := by
        have := List.getElem?_eq_getElem hi₂lt
        rw [this] at hOi₂
        simpa using hOi₂
      have hij : i₁ < i₂ := by
        rcases Nat.lt_trichotomy i₁ i₂ with h | h | h
        · exact h
        · exfalso
          subst h
          have hk : k₁ = k₂ := hg₁.symm.trans hg₂
          rw [hk] at hlt
          exact lt_irrefl _ hlt
        · exfalso
          have := hOSorted.rel_get_of_lt (show (⟨i₂, hi₂lt⟩ : Fin O.length)
            < ⟨i₁, hi₁lt⟩ from h)
          rw [hg₁, hg₂] at this
          exact absurd hlt (not_lt.2 this)
      omega

/-! ## Deletion lemmas (claims C4, C10) -/

/-- The entry transformer of `handleDeleteNode`'s surviving-node pass:
drop entries with a bad key, rewrite the value of the others. -/
def guardEntry {β : Type} (bad : String → Bool) (g : β → β) (kv : String × β) :
    Option (String × β) :=
  if bad kv.1 then Option.none else some (kv.1, g kv.2)

theorem lookup_cons_ne {α : Type} (k k' : String) (v' : α) (rest : List (String × α))
    (h : k ≠ k') : List.lookup k ((k', v') :: rest) = List.lookup k rest := by
  simp only [List.lookup]
  rw [show (k == k') = false from by simp [h]]

theorem lookup_cons_self {α : Type} (k : String) (v : α) (rest : List (String × α)) :
    List.lookup k ((k, v) :: rest) = some v := by
  simp [List.lookup]

theorem guardEntry_bad {β : Type} {bad : String → Bool} {g : β → β}
    {k : String} {v : β} (h : bad k = true) :
    guardEntry bad g (k, v) = Option.none := by
  unfold guardEntry
  rw [if_pos h]

theorem guardEntry_good {β : Type} {bad : String → Bool} {g : β → β}
    {k : String} {v : β} (h : bad k = false) :
    guardEntry bad g (k, v) = some (k, g v) := by
  unfold guardEntry
  rw [if_neg (by rw [h]; exact Bool.false_ne_true)]

theorem deleteChoiceMap_none {del : List String} {c : Choice}
    (h : c.nextNodeId = Option.none) : deleteChoiceMap del c = c := by
  unfold deleteChoiceMap
  rw [h]

theorem deleteChoiceMap_some {del : List String} {c : Choice} {t : String}
    (h : c.nextNodeId = some t) :
    deleteChoiceMap del c =
      if t ≠ "" ∧ del.contains t then
        { c with nextNodeId := Option.none, isChosen := false }
      else c := by
  unfold deleteChoiceMap
  rw [h]

theorem lookup_filterMap_guard {β : Type} (l : List (String × β))
    (bad : String → Bool) (g : β → β) :
    ∀ k, List.lookup k (l.filterMap (guardEntry bad g))
      = if bad k then Option.none else (List.lookup k l).map g := by
  induction l with
  | nil =>
    intro k
    cases hb : bad k
    · rw [if_neg Bool.false_ne_true]
      rfl
    · rw [if_pos rfl]
      rfl
  | cons p rest ih =>
    intro k
    obtain ⟨k', v'⟩ := p
    rw [List.filterMap_cons]
    cases hb' : bad k' with
    | true =>
      rw [guardEntry_bad hb']
      show List.lookup k (rest.filterMap (guardEntry bad g)) = _
      rw [ih k]
      by_cases hk : k = k'
      · subst hk
        rw [if_pos hb', if_pos hb']
      · rw [lookup_cons_ne k k' v' rest hk]
    | false =>
      rw [guardEntry_good hb']
      show List.lookup k ((k', g v') :: rest.filterMap (guardEntry bad g)) = _
      by_cases hk : k = k'
      · subst hk
        rw [lookup_cons_self, lookup_cons_self,
          if_neg (by rw [hb']; exact Bool.false_ne_true)]
        rfl
      · rw [lookup_cons_ne k k' (g v') _ hk, lookup_cons_ne k k' v' rest hk]
        exact ih k

theorem keys_filterMap_guard {β : Type} (l : List (String × β))
    (bad : String → Bool) (g : β → β) :
    (l.filterMap (guardEntry bad g)).map Prod.fst
      = (l.map Prod.fst).filter fun k => ! bad k := by
  induction l with
  | nil => rfl
  | cons p rest ih =>
    obtain ⟨k', v'⟩ := p
    rw [List.filterMap_cons, List.map_cons, List.filter_cons]
    cases hb' : bad k' with
    | true =>
      rw [guardEntry_bad hb']
      show (rest.filterMap (guardEntry bad g)).map Prod.fst = _
      rw [if_neg (by simp)]
      exact ih
    | false =>
      rw [guardEntry_good hb']
      show k' :: (rest.filterMap (guardEntry bad g)).map Prod.fst = _
      rw [if_pos (by simp)]
      rw [ih]

/-- The deletion set computed by `handleDeleteNode`'s BFS is exactly the set
of nodes reachable from `nodeId` along resolved edges (with `nodeId`). -/
theorem deleteSet_iff (story : Story) (nodeId : String) :
    ∀ k, k ∈ deleteSet story nodeId ↔ Reach story.nodes nodeId k := by
  have inv := bfsVisit_invariant story.nodes nodeId [nodeId] [nodeId] [] 1
    (List.nodup_singleton _)
    (by simp)
    (by simp)
    (by simp)
    (by
      intro u hu hnq v he
      exact absurd hu hnq)
    (by
      intro v hv
      have : v = nodeId := by simpa using hv
      subst this
      exact Relation.ReflTransGen.refl)
    (by
      intro v hv
      exact Or.inl (by simpa using hv))
  obtain ⟨_, _, _, _, f5, f6, _, f8, _⟩ := inv
  intro k
  unfold deleteSet
  exact ⟨f6 k, fun h => reach_subset_closed f5 (f8 nodeId (by simp)) h⟩

/-- Unfolding `deleteNode` away from the start node. -/
theorem deleteNode_eq (story : Story) (nodeId : String)
    (h : nodeId ≠ story.startNodeId) :
    deleteNode story nodeId =
      { story with
        nodes := story.nodes.filterMap
          (guardEntry (fun k2 => (deleteSet story nodeId).contains k2)
            (fun n => { n with
              choices := n.choices.map (deleteChoiceMap (deleteSet story nodeId)) }))
        endNodeIds := story.endNodeIds.filter fun id =>
          ! (deleteSet story nodeId).contains id } := by
  rw [deleteNode, if_neg h]
  rfl

theorem deleteNode_nodes_lookup (story : Story) (nodeId : String)
    (h : nodeId ≠ story.startNodeId) (k : String) :
    List.lookup k (deleteNode story nodeId).nodes
      = if (deleteSet story nodeId).contains k then Option.none
        else (List.lookup k story.nodes).map fun n =>
          { n with choices := n.choices.map (deleteChoiceMap (deleteSet story nodeId)) } := by
  rw [deleteNode_eq story nodeId h]
  exact lookup_filterMap_guard story.nodes
    (fun k2 => (deleteSet story nodeId).contains k2)
    (fun n => { n with choices := n.choices.map (deleteChoiceMap (deleteSet story nodeId)) }) k

/-! ## Claim C4 (deletion removes exactly the reachable set) -/

/-- C4's counterexample: in `emptyIdStory` the node with the empty-string id
is deleted (it is the deletion target, hence in the deletion set), yet the
surviving start node's choice targeting `""` does NOT become unresolved —
JavaScript's `if (choice.nextNodeId && ...)` treats the empty string as
falsy, so the choice keeps its (now dangling) target and its explored flag. -/
theorem claim_c4_counterexample :
    ("" : String) ≠ emptyIdStory.startNodeId ∧
    Reach emptyIdStory.nodes "" "" ∧
    List.lookup "" (deleteNode emptyIdStory "").nodes = Option.none ∧
    ∃ n', List.lookup "s" (deleteNode emptyIdStory "").nodes = some n' ∧
      n'.choices.map (fun c => (c.nextNodeId, c.isChosen)) = [(some "", true)] := by
  have hdel : deleteSet emptyIdStory "" = [""] := by
    simp [deleteSet, bfsVisit, newNodes, collectNew, emptyIdStory, mkStory, mkNode,
      mkChoice, mapSet, List.lookup]
  have hne : ("" : String) ≠ emptyIdStory.startNodeId := by decide
  refine ⟨hne, Relation.ReflTransGen.refl, ?_, ?_⟩
  · rw [deleteNode_nodes_lookup emptyIdStory "" hne, hdel]
    rfl
  · rw [deleteNode_nodes_lookup emptyIdStory "" hne, hdel]
    exact ⟨_, rfl, by decide⟩

/-- C4 (amended): for every story and non-start `nodeId`, `deleteNode`
removes from `nodes` exactly the nodes BFS-reachable from `nodeId` via
resolved choice edges (a resolved edge has a non-null AND non-empty target
— JavaScript truthiness — pointing at an existing node), `nodeId` included;
every surviving choice whose non-empty `nextNodeId` lies in that set
becomes `nextNodeId = null` with `isChosen = false` (an empty-string target
is never rewritten, being falsy), choices with targets outside the set are
unchanged; and exactly the deleted ids are removed from `endNodeIds`. -/
theorem claim_c4_amended (story : Story) (nodeId : String)
    (h : nodeId ≠ story.startNodeId) :
    (∀ k, k ∈ (deleteNode story nodeId).nodes.map Prod.fst ↔
      (k ∈ story.nodes.map Prod.fst ∧ ¬ Reach story.nodes nodeId k)) ∧
    (∀ k n', List.lookup k (deleteNode story nodeId).nodes = some n' →
      ∃ n, List.lookup k story.nodes = some n ∧
        n'.choices.length = n.choices.length ∧
        ∀ i : Nat, ∀ c c', n.choices[i]? = some c → n'.choices[i]? = some c' →
          (∀ t, c.nextNodeId = some t → t ≠ "" → Reach story.nodes nodeId t →
            c'.nextNodeId = Option.none ∧ c'.isChosen = false) ∧
          ((∀ t, c.nextNodeId = some t → t ≠ "" → ¬ Reach story.nodes nodeId t) →
            c' = c)) ∧
    (∀ id, id ∈ (deleteNode story nodeId).endNodeIds ↔
      (id ∈ story.endNodeIds ∧ ¬ Reach story.nodes nodeId id)) := by
  refine ⟨?_, ?_, ?_⟩
  · intro k
    rw [deleteNode_eq story nodeId h]
    show k ∈ (story.nodes.filterMap _).map Prod.fst ↔ _
    rw [keys_filterMap_guard, List.mem_filter]
    constructor
    · rintro ⟨hk, hf⟩
      refine ⟨hk, fun hreach => ?_⟩
      rw [Bool.not_eq_true', Bool.eq_false_iff] at hf
      exact hf ((contains_true_iff _ _).2 ((deleteSet_iff story nodeId k).2 hreach))
    · rintro ⟨hk, hreach⟩
      refine ⟨hk, ?_⟩
      rw [Bool.not_eq_true', Bool.eq_false_iff]
      intro hcon
      exact hreach ((deleteSet_iff story nodeId k).1 ((contains_true_iff _ _).1 hcon))
  · intro k n' hlook
    rw [deleteNode_nodes_lookup story nodeId h k] at hlook
    by_cases hc : (deleteSet story nodeId).contains k
    · rw [if_pos hc] at hlook
      cases hlook
    · rw [if_neg hc] at hlook
      cases hlk : List.lookup k story.nodes with
      | none => rw [hlk] at hlook; cases hlook
      | some n =>
        rw [hlk] at hlook
        have hn' : n' = { n with
            choices := n.choices.map (deleteChoiceMap (deleteSet story nodeId)) } := by
          simpa using hlook.symm
        refine ⟨n, rfl, ?_, ?_⟩
        · rw [hn']
          simp
        · intro i c c' hci hci'
          rw [hn'] at hci'
          simp only [List.getElem?_map, hci, Option.map_some'] at hci'
          have hc' : c' = deleteChoiceMap (deleteSet story nodeId) c := by
            simpa using hci'.symm
          constructor
          · intro t hct htne hreach
            rw [hc', deleteChoiceMap_some hct]
            rw [if_pos ⟨htne, (contains_true_iff _ _).2
              ((deleteSet_iff story nodeId t).2 hreach)⟩]
            exact ⟨rfl, rfl⟩
          · intro hout
            rw [hc']
            cases hct : c.nextNodeId with
            | none => exact deleteChoiceMap_none hct
            | some t =>
              rw [deleteChoiceMap_some hct]
              by_cases htne : t = ""
              · rw [if_neg (by rw [htne]; simp)]
              · rw [if_neg ?cnd]
                case cnd =>
                  rintro ⟨_, hcon⟩
                  exact hout t hct htne
                    ((deleteSet_iff story nodeId t).1 ((contains_true_iff _ _).1 hcon))
  · intro id
    rw [deleteNode_eq story nodeId h]
    show id ∈ story.endNodeIds.filter _ ↔ _
    rw [List.mem_filter]
    constructor
    · rintro ⟨hid, hf⟩
      refine ⟨hid, fun hreach => ?_⟩
      rw [Bool.not_eq_true', Bool.eq_false_iff] at hf
      exact hf ((contains_true_iff _ _).2 ((deleteSet_iff story nodeId id).2 hreach))
    · rintro ⟨hid, hreach⟩
      refine ⟨hid, ?_⟩
      rw [Bool.not_eq_true', Bool.eq_false_iff]
      intro hcon
      exact hreach ((deleteSet_iff story nodeId id).1 ((contains_true_iff _ _).1 hcon))

/-- Witness for C4 (amended) on the two-node cycle story, deleting `"a"`:
the key characterization instantiated at the start node id. -/
theorem claim_c4_amended_witness :
    ("a" : String) ≠ cycleBackStory.startNodeId ∧
    ¬ ("s" ∈ (deleteNode cycleBackStory "a").nodes.map Prod.fst) := by
  have hne : ("a" : String) ≠ cycleBackStory.startNodeId := by decide
  refine ⟨hne, ?_⟩
  intro hmem
  have hiff := (claim_c4_amended cycleBackStory "a" hne).1 "s"
  have hreach : Reach cycleBackStory.nodes "a" "s" := by
    apply Relation.ReflTransGen.single
    refine ⟨mkNode "a" ['A'] [mkChoice "c2" (some "s") ChoicePrediction.bad], by decide,
      mkChoice "c2" (some "s") ChoicePrediction.bad, by decide, rfl, by decide, by decide⟩
  exact (hiff.1 hmem).2 hreach

/-! ## Claim C10 (deletion frame) -/

/-- C10: away from the rewired choices, `deleteNode` changes nothing about
surviving state: the story's scalar fields are unchanged; every surviving
node keeps its id, dialogue, illustration fields and its choice list's
length and order; every choice keeps its id, text, prediction and
rationale; and a choice whose target is not in the deletion set (or is
unresolved) is returned entirely unchanged. -/
theorem claim_c10_delete_frame (story : Story) (nodeId : String)
    (h : nodeId ≠ story.startNodeId) :
    (deleteNode story nodeId).title = story.title ∧
    (deleteNode story nodeId).prompt = story.prompt ∧
    (deleteNode story nodeId).artStyle = story.artStyle ∧
    (deleteNode story nodeId).coverImageUrl = story.coverImageUrl ∧
    (deleteNode story nodeId).endingConditions = story.endingConditions ∧
    (deleteNode story nodeId).startNodeId = story.startNodeId ∧
    ∀ k n', List.lookup k (deleteNode story nodeId).nodes = some n' →
      ∃ n, List.lookup k story.nodes = some n ∧
        n'.id = n.id ∧ n'.dialogue = n.dialogue ∧
        n'.illustrationUrl = n.illustrationUrl ∧ n'.cgImageUrl = n.cgImageUrl ∧
        n'.choices.length = n.choices.length ∧
        ∀ i : Nat, ∀ c c', n.choices[i]? = some c → n'.choices[i]? = some c' →
          c'.id = c.id ∧ c'.text = c.text ∧ c'.prediction = c.prediction ∧
          c'.predictionRationale = c.predictionRationale ∧
          ((∀ t, c.nextNodeId = some t → ¬ t ∈ deleteSet story nodeId) → c' = c) := by
  rw [deleteNode_eq story nodeId h]
  refine ⟨rfl, rfl, rfl, rfl, rfl, rfl, ?_⟩
  intro k n' hlook
  have hlook2 : List.lookup k (deleteNode story nodeId).nodes = some n' := by
    rw [deleteNode_eq story nodeId h]
    exact hlook
  rw [deleteNode_nodes_lookup story nodeId h k] at hlook2
  by_cases hc : (deleteSet story nodeId).contains k
  · rw [if_pos hc] at hlook2
    cases hlook2
  · rw [if_neg hc] at hlook2
    cases hlk : List.lookup k story.nodes with
    | none => rw [hlk] at hlook2; cases hlook2
    | some n =>
      rw [hlk] at hlook2
      have hn' : n' = { n with
          choices := n.choices.map (deleteChoiceMap (deleteSet story nodeId)) } := by
        simpa using hlook2.symm
      refine ⟨n, rfl, by rw [hn'], by rw [hn'], by rw [hn'], by rw [hn'],
        by rw [hn']; simp, ?_⟩
      intro i c c' hci hci'
      rw [hn'] at hci'
      simp only [List.getElem?_map, hci, Option.map_some'] at hci'
      have hc' : c' = deleteChoiceMap (deleteSet story nodeId) c := by
        simpa using hci'.symm
      rw [hc']
      cases hct : c.nextNodeId with
      | none =>
        rw [deleteChoiceMap_none hct]
        exact ⟨rfl, rfl, rfl, rfl, fun _ => rfl⟩
      | some t =>
        rw [deleteChoiceMap_some hct]
        by_cases hcnd : t ≠ "" ∧ (deleteSet story nodeId).contains t
        · rw [if_pos hcnd]
          refine ⟨rfl, rfl, rfl, rfl, ?_⟩
          intro hout
          exact absurd ((contains_true_iff _ _).1 hcnd.2) (hout t rfl)
        · rw [if_neg hcnd]
          exact ⟨rfl, rfl, rfl, rfl, fun _ => rfl⟩

/-- Witness for C10 on the two-node cycle story. -/
theorem claim_c10_witness :
    (deleteNode cycleBackStory "a").title = cycleBackStory.title ∧
    (deleteNode cycleBackStory "a").startNodeId = cycleBackStory.startNodeId := by
  have hfr := claim_c10_delete_frame cycleBackStory "a" (by decide)
  exact ⟨hfr.1, hfr.2.2.2.2.2.1⟩

/-- Witness for C3 on the three-node story with two orphans. -/
theorem claim_c3_witness :
    List.lookup "s" (generatePageMap orphanCycleStory.nodes "s") = some 1 ∧
    (generatePageMap orphanCycleStory.nodes "s").map Prod.snd
      = List.range' 1 orphanCycleStory.nodes.length := by
  have hc := (claim_c3_page_numbering orphanCycleStory.nodes "s" (by decide)).2 (by decide)
  exact ⟨hc.1, hc.2.2.2.1⟩

/-! ## Claim C9 (path-score monotonicity) -/

theorem pathLoop_append_acc {pm : List (String × String)} {start : String} :
    ∀ {fuel : Nat} {cur : Option String} {acc p : List String},
      pathLoop pm start cur acc fuel = some p → ∃ q, p = q ++ acc := by
  intro fuel
  induction fuel with
  | zero => intro cur acc p h; cases h
  | succ n ih =>
    intro cur acc p h
    cases cur with
    | none =>
      refine ⟨[], ?_⟩
      have : some acc = some p := h
      simpa using this.symm
    | some s =>
      simp only [pathLoop] at h
      by_cases hs : s = ""
      · rw [if_pos hs] at h
        exact ⟨[], by simpa using h.symm⟩
      · rw [if_neg hs] at h
        by_cases hst : s = start
        · rw [if_pos hst] at h
          exact ⟨[s], by simpa using h.symm⟩
        · rw [if_neg hst] at h
          obtain ⟨q, hq⟩ := ih h
          exact ⟨q ++ [s], by rw [hq, List.append_assoc]; rfl⟩

theorem pathLoop_some_last {pm : List (String × String)} {start s : String}
    {acc p : List String} {fuel : Nat} (hs : s ≠ "")
    (h : pathLoop pm start (some s) acc fuel = some p) :
    ∃ q, p = q ++ s :: acc := by
  cases fuel with
  | zero => cases h
  | succ n =>
    simp only [pathLoop] at h
    rw [if_neg hs] at h
    by_cases hst : s = start
    · rw [if_pos hst] at h
      exact ⟨[], by simpa using h.symm⟩
    · rw [if_neg hst] at h
      obtain ⟨q, hq⟩ := pathLoop_append_acc h
      exact ⟨q, hq⟩

theorem scoreLoop_append_last (story : Story) :
    ∀ (l : List String) (x a : String) (s : Scores), l.getLast? = some a →
      scoreLoop story (l ++ [x]) s = scoreStep story a x (scoreLoop story l s) := by
  intro l
  induction l with
  | nil =>
    intro x a s h
    cases h
  | cons b l ih =>
    intro x a s h
    cases l with
    | nil =>
      have hab : a = b := by simpa using h.symm
      subst hab
      rfl
    | cons c r =>
      have hlast : (c :: r).getLast? = some a := by
        rw [← h]
        exact List.getLast?_cons_cons.symm
      show scoreLoop story (b :: ((c :: r) ++ [x])) s = _
      have h1 : scoreLoop story (b :: ((c :: r) ++ [x])) s
          = scoreLoop story ((c :: r) ++ [x]) (scoreStep story b c s) := rfl
      rw [h1, ih x a (scoreStep story b c s) hlast]
      rfl

theorem calculatePathScores_eq {story : Story} {target : String}
    {pm : List (String × String)} {fuel : Nat} {p : List String}
    (h : pathLoop pm story.startNodeId (some target) [] fuel = some p) :
    calculatePathScores story target pm fuel
      = some (if p.head? = some story.startNodeId
          then scoreLoop story p zeroScores else zeroScores) := by
  unfold calculatePathScores
  rw [h]
  rfl

/-- C9: if the parent-map path reconstructed from the root to `T` extends
the root-to-`P` path by one step, and the choice of `P` that the scorer
selects for the pair `(P, T)` (the first choice with `nextNodeId == T`)
carries category `X ≠ none`, then the scores at `T` are the scores at `P`
with category `X` increased by exactly 1 and the other categories
unchanged.  The fuels witness termination of the backward walks. -/
theorem claim_c9_score_monotone (story : Story) (pm : List (String × String))
    (T P : String) (fuelT fuelP : Nat) (pT pP : List String)
    (nodeP : StoryNode) (ch : Choice) (X : ChoicePrediction)
    (hT : pathLoop pm story.startNodeId (some T) [] fuelT = some pT)
    (hP : pathLoop pm story.startNodeId (some P) [] fuelP = some pP)
    (hext : pT = pP ++ [T])
    (hroot : pT.head? = some story.startNodeId)
    (hlastP : pP.getLast? = some P)
    (hnode : List.lookup P story.nodes = some nodeP)
    (hfind : nodeP.choices.find? (fun c => c.nextNodeId == some T) = some ch)
    (hpred : ch.prediction = X) (hX : X ≠ ChoicePrediction.none) :
    ∀ sP, calculatePathScores story P pm fuelP = some sP →
      ∃ sT, calculatePathScores story T pm fuelT = some sT ∧
        sT.good = sP.good + (if X = ChoicePrediction.good then 1 else 0) ∧
        sT.bad = sP.bad + (if X = ChoicePrediction.bad then 1 else 0) ∧
        sT.mixed = sP.mixed + (if X = ChoicePrediction.mixed then 1 else 0) := by
  intro sP hsP
  have hPne : pP ≠ [] := by
    intro hnil
    rw [hnil] at hlastP
    cases hlastP
  have hheadP : pP.head? = some story.startNodeId := by
    rw [hext] at hroot
    cases pP with
    | nil => exact absurd rfl hPne
    | cons a rest => simpa using hroot
  have hsPval : sP = scoreLoop story pP zeroScores := by
    rw [calculatePathScores_eq hP, if_pos hheadP] at hsP
    simpa using hsP.symm
  have hTcalc : calculatePathScores story T pm fuelT
      = some (scoreLoop story pT zeroScores) := by
    rw [calculatePathScores_eq hT, if_pos hroot]
  have hstep : scoreLoop story pT zeroScores
      = scoreStep story P T (scoreLoop story pP zeroScores) := by
    rw [hext]
    exact scoreLoop_append_last story pP T P zeroScores hlastP
  have hstepval : ∀ s : Scores, scoreStep story P T s = bumpScore s X := by
    intro s
    unfold scoreStep
    rw [hnode]
    show (match nodeP.choices.find? (fun c => c.nextNodeId == some T) with
      | Option.none => s
      | some chosenChoice =>
        if chosenChoice.prediction ≠ ChoicePrediction.none then
          bumpScore s chosenChoice.prediction
        else s) = bumpScore s X
    rw [hfind]
    show (if ch.prediction ≠ ChoicePrediction.none then
        bumpScore s ch.prediction else s) = bumpScore s X
    rw [hpred, if_pos hX]
  refine ⟨bumpScore sP X, ?_, ?_, ?_, ?_⟩
  · rw [hTcalc, hstep, hstepval, ← hsPval]
  · cases X <;> simp [bumpScore]
  · cases X <;> simp [bumpScore]
  · cases X <;> simp [bumpScore]

/-- Witness for C9 on the chain story `s → p → t` where the edge into `t`
is `good` and the edge into `p` is uncounted. -/
theorem claim_c9_witness :
    calculatePathScores chainStory "p" (getParentMap chainStory) 5 = some zeroScores ∧
    ∃ sT, calculatePathScores chainStory "t" (getParentMap chainStory) 5 = some sT ∧
      sT.good = zeroScores.good + (if ChoicePrediction.good = ChoicePrediction.good
        then 1 else 0) ∧
      sT.bad = zeroScores.bad + (if ChoicePrediction.good = ChoicePrediction.bad
        then 1 else 0) ∧
      sT.mixed = zeroScores.mixed + (if ChoicePrediction.good = ChoicePrediction.mixed
        then 1 else 0) := by
  have h := claim_c9_score_monotone chainStory (getParentMap chainStory) "t" "p" 5 5
    ["s", "p", "t"] ["s", "p"]
    (mkNode "p" ['P'] [mkChoice "c2" (some "t") ChoicePrediction.good])
    (mkChoice "c2" (some "t") ChoicePrediction.good) ChoicePrediction.good
    (by decide) (by decide) (by decide) (by decide) (by decide) (by decide)
    (by decide) rfl (by decide)
  exact ⟨by decide, h zeroScores (by decide)⟩

/-! ## The shuffle (`handleShuffle`, `shuffleArray`) -/

theorem perm_cons_set {α : Type} : ∀ (t : List α) (m : Nat) (a b : α),
    t[m]? = some b → (b :: t.set m a).Perm (a :: t) := by
  intro t
  induction t with
  | nil => intro m a b h; simp at h
  | cons x t ih =>
    intro m a b h
    cases m with
    | zero =>
      simp only [List.getElem?_cons_zero, Option.some.injEq] at h
      subst h
      exact List.Perm.swap a x t
    | succ k =>
      simp only [List.getElem?_cons_succ] at h
      have h1 : (b :: x :: t.set k a).Perm (x :: b :: t.set k a) := List.Perm.swap x b _
      have h2 : (x :: (b :: t.set k a)).Perm (x :: (a :: t)) := (ih k a b h).cons x
      have h3 : (x :: a :: t).Perm (a :: x :: t) := List.Perm.swap a x t
      exact (h1.trans h2).trans h3

theorem set_set_perm {α : Type} : ∀ (l : List α) (i j : Nat) (a b : α),
    l[i]? = some a → l[j]? = some b → ((l.set i b).set j a).Perm l := by
  intro l
  induction l with
  | nil => intro i j a b hi _; simp at hi
  | cons x t ih =>
    intro i j a b hi hj
    cases i with
    | zero =>
      simp only [List.getElem?_cons_zero, Option.some.injEq] at hi
      subst hi
      cases j with
      | zero =>
        simp only [List.getElem?_cons_zero, Option.some.injEq] at hj
        subst hj
        simp
      | succ m =>
        simp only [List.getElem?_cons_succ] at hj
        simp only [List.set]
        exact perm_cons_set t m x b hj
    | succ k =>
      simp only [List.getElem?_cons_succ] at hi
      cases j with
      | zero =>
        simp only [List.getElem?_cons_zero, Option.some.injEq] at hj
        subst hj
        simp only [List.set]
        exact perm_cons_set t k x a hi
      | succ m =>
        simp only [List.getElem?_cons_succ] at hj
        simp only [List.set]
        exact (ih k m a b hi hj).cons x

theorem listSwap_perm {α : Type} (l : List α) (i j : Nat) :
    (listSwap l i j).Perm l := by
  unfold listSwap
  cases hi : l[i]? with
  | none => exact List.Perm.refl l
  | some a =>
    cases hj : l[j]? with
    | none => exact List.Perm.refl l
    | some b => exact set_set_perm l i j a b hi hj

theorem fyAux_perm {α : Type} (rand : Nat → Nat) :
    ∀ (i : Nat) (l : List α), (fyAux rand i l).Perm l := by
  intro i
  induction i with
  | zero => intro l; exact List.Perm.refl l
  | succ k ih =>
    intro l
    exact (ih _).trans (listSwap_perm l (k + 1) (rand (k + 1) % (k + 2)))

theorem shuffleArray_perm {α : Type} (rand : Nat → Nat) (l : List α) :
    (shuffleArray rand l).Perm l :=
  fyAux_perm rand (l.length - 1) l

theorem lookup_addToGroup_self (gs : List (String × List Page)) (k : String) (p : Page) :
    List.lookup k (addToGroup gs k p) =
      some ((List.lookup k gs).getD [] ++ [p]) := by
  induction gs with
  | nil => simp [addToGroup, List.lookup]
  | cons g rest ih =>
    obtain ⟨k', ps⟩ := g
    by_cases h : k' = k
    · subst h
      simp [addToGroup, List.lookup]
    · have h2 : k ≠ k' := Ne.symm h
      rw [addToGroup, if_neg h, lookup_cons_ne _ _ _ _ h2, lookup_cons_ne _ _ _ _ h2, ih]

theorem lookup_addToGroup_ne (gs : List (String × List Page)) (k k' : String) (p : Page)
    (hne : k' ≠ k) :
    List.lookup k' (addToGroup gs k p) = List.lookup k' gs := by
  induction gs with
  | nil =>
    simp only [addToGroup]
    rw [lookup_cons_ne _ _ _ _ hne]
  | cons g rest ih =>
    obtain ⟨k'', ps⟩ := g
    by_cases h : k'' = k
    · subst h
      rw [addToGroup, if_pos rfl, lookup_cons_ne _ _ _ _ hne, lookup_cons_ne _ _ _ _ hne]
    · by_cases h2 : k' = k''
      · subst h2
        rw [addToGroup, if_neg h, lookup_cons_self, lookup_cons_self]
      · rw [addToGroup, if_neg h, lookup_cons_ne _ _ _ _ h2, lookup_cons_ne _ _ _ _ h2, ih]

theorem keys_addToGroup (gs : List (String × List Page)) (k : String) (p : Page) :
    (addToGroup gs k p).map Prod.fst =
      if k ∈ gs.map Prod.fst then gs.map Prod.fst else gs.map Prod.fst ++ [k] := by
  induction gs with
  | nil => simp [addToGroup]
  | cons g rest ih =>
    obtain ⟨k', ps⟩ := g
    by_cases h : k' = k
    · subst h
      simp [addToGroup]
    · by_cases hm : k ∈ rest.map Prod.fst
      · simp [addToGroup, h, ih, hm, Ne.symm h]
      · simp [addToGroup, h, ih, hm, Ne.symm h]

theorem flatten_addToGroup_perm (gs : List (String × List Page)) (k : String) (p : Page) :
    (((addToGroup gs k p).map Prod.snd).flatten).Perm
      (p :: (gs.map Prod.snd).flatten) := by
  induction gs with
  | nil => simp [addToGroup]
  | cons g rest ih =>
    obtain ⟨k', ps⟩ := g
    by_cases h : k' = k
    · subst h
      rw [addToGroup, if_pos rfl]
      simp only [List.map_cons, List.flatten_cons]
      have h1 : (ps ++ [p]).Perm (p :: ps) := List.perm_append_singleton p ps
      have h2 := h1.append_right ((rest.map Prod.snd).flatten)
      exact h2
    · rw [addToGroup, if_neg h]
      simp only [List.map_cons, List.flatten_cons]
      exact (ih.append_left ps).trans List.perm_middle

theorem buildGroupsAux_lookup_getD :
    ∀ (ps : List Page) (acc : List (String × List Page)) (k : String),
      (List.lookup k (buildGroupsAux acc ps)).getD [] =
        (List.lookup k acc).getD [] ++ ps.filter (isNodeOf k) := by
  intro ps
  induction ps with
  | nil => intro acc k; simp [buildGroupsAux]
  | cons p rest ih =>
    intro acc k
    match p with
    | Page.cover t u =>
      simp only [buildGroupsAux]
      rw [ih]
      simp [List.filter_cons, isNodeOf]
    | Page.backCover pr =>
      simp only [buildGroupsAux]
      rw [ih]
      simp [List.filter_cons, isNodeOf]
    | Page.node n oid chunk fi la =>
      by_cases h : oid = k
      · subst h
        simp only [buildGroupsAux]
        rw [ih, lookup_addToGroup_self]
        simp [List.filter_cons, isNodeOf, List.append_assoc]
      · simp only [buildGroupsAux]
        rw [ih, lookup_addToGroup_ne _ _ _ _ (Ne.symm h)]
        simp [List.filter_cons, isNodeOf, h]

theorem buildGroupsAux_lookup_isSome :
    ∀ (ps : List Page) (acc : List (String × List Page)) (k : String),
      (List.lookup k (buildGroupsAux acc ps)).isSome =
        ((List.lookup k acc).isSome || !(ps.filter (isNodeOf k)).isEmpty) := by
  intro ps
  induction ps with
  | nil => intro acc k; simp [buildGroupsAux]
  | cons p rest ih =>
    intro acc k
    match p with
    | Page.cover t u =>
      simp only [buildGroupsAux]
      rw [ih]
      simp [List.filter_cons, isNodeOf]
    | Page.backCover pr =>
      simp only [buildGroupsAux]
      rw [ih]
      simp [List.filter_cons, isNodeOf]
    | Page.node n oid chunk fi la =>
      by_cases h : oid = k
      · subst h
        simp only [buildGroupsAux]
        rw [ih, lookup_addToGroup_self]
        simp [List.filter_cons, isNodeOf]
      · simp only [buildGroupsAux]
        rw [ih, lookup_addToGroup_ne _ _ _ _ (Ne.symm h)]
        simp [List.filter_cons, isNodeOf, h]

theorem buildGroups_lookup_some {content : List Page} {k : String} {g : List Page}
    (h : List.lookup k (buildGroups content) = some g) :
    g = content.filter (isNodeOf k) ∧ g ≠ [] := by
  have h1 := buildGroupsAux_lookup_getD content [] k
  have h2 := buildGroupsAux_lookup_isSome content [] k
  rw [buildGroups] at h
  rw [h] at h1 h2
  simp only [List.lookup_nil, Option.getD_some, Option.getD_none, List.nil_append,
    Option.isSome_some, Option.isSome_none, Bool.false_or] at h1 h2
  refine ⟨h1, ?_⟩
  intro hg
  rw [hg] at h1
  rw [← h1] at h2
  simp at h2

theorem buildGroups_lookup_none {content : List Page} {k : String}
    (h : List.lookup k (buildGroups content) = Option.none) :
    content.filter (isNodeOf k) = [] := by
  have h1 := buildGroupsAux_lookup_getD content [] k
  rw [buildGroups] at h
  rw [h] at h1
  simp only [List.lookup_nil, Option.getD_none, List.nil_append] at h1
  exact h1.symm

theorem buildGroupsAux_keys_nodup :
    ∀ (ps : List Page) (acc : List (String × List Page)),
      (acc.map Prod.fst).Nodup → ((buildGroupsAux acc ps).map Prod.fst).Nodup := by
  intro ps
  induction ps with
  | nil => intro acc h; simpa [buildGroupsAux] using h
  | cons p rest ih =>
    intro acc h
    match p with
    | Page.cover t u => exact ih acc h
    | Page.backCover pr => exact ih acc h
    | Page.node n oid chunk fi la =>
      simp only [buildGroupsAux]
      refine ih _ ?_
      rw [keys_addToGroup]
      by_cases hm : oid ∈ acc.map Prod.fst
      · rw [if_pos hm]; exact h
      · rw [if_neg hm]
        refine List.Nodup.append h (List.nodup_singleton oid) ?_
        intro a ha ha2
        rw [List.mem_singleton] at ha2
        subst ha2
        exact hm ha

theorem buildGroupsAux_flatten_perm :
    ∀ (ps : List Page) (acc : List (String × List Page)),
      (((buildGroupsAux acc ps).map Prod.snd).flatten).Perm
        ((acc.map Prod.snd).flatten ++ ps.filter isNodePage) := by
  intro ps
  induction ps with
  | nil => intro acc; simp [buildGroupsAux]
  | cons p rest ih =>
    intro acc
    match p with
    | Page.cover t u =>
      simp only [buildGroupsAux]
      have h := ih acc
      simpa [List.filter_cons, isNodePage] using h
    | Page.backCover pr =>
      simp only [buildGroupsAux]
      have h := ih acc
      simpa [List.filter_cons, isNodePage] using h
    | Page.node n oid chunk fi la =>
      simp only [buildGroupsAux]
      have h1 := ih (addToGroup acc oid (Page.node n oid chunk fi la))
      have h2 := flatten_addToGroup_perm acc oid (Page.node n oid chunk fi la)
      have h3 := h2.append_right (rest.filter isNodePage)
      have h4 := h1.trans h3
      rw [List.filter_cons_of_pos (by rfl)]
      refine h4.trans ?_
      simp only [List.cons_append]
      exact List.perm_middle.symm

theorem lookup_split {α : Type} {l : List (String × α)} {k : String} {v : α}
    (h : List.lookup k l = some v) :
    ∃ A B, l = A ++ (k, v) :: B ∧ ∀ q ∈ A, q.1 ≠ k := by
  induction l with
  | nil => simp [List.lookup] at h
  | cons g rest ih =>
    obtain ⟨k', v'⟩ := g
    by_cases hk : k = k'
    · subst hk
      rw [lookup_cons_self] at h
      refine ⟨[], rest, ?_, by simp⟩
      rw [Option.some.injEq] at h
      rw [h]
      rfl
    · rw [lookup_cons_ne _ _ _ _ hk] at h
      obtain ⟨A, B, hAB, hA⟩ := ih h
      refine ⟨(k', v') :: A, B, by rw [hAB]; rfl, ?_⟩
      intro q hq
      rcases List.mem_cons.mp hq with h1 | h1
      · rw [h1]
        exact fun he => hk he.symm
      · exact hA q h1

/-- No page of the list belongs to node `k`. -/
def FreeOf (k : String) (l : List Page) : Prop :=
  ∀ p ∈ l, isNodeOf k p = false

theorem filter_eq_nil_of_free {k : String} : ∀ {l : List Page},
    FreeOf k l → l.filter (isNodeOf k) = [] := by
  intro l h
  induction l with
  | nil => rfl
  | cons p t ih =>
    rw [List.filter_cons, h p (List.mem_cons_self p t)]
    exact ih fun q hq => h q (List.mem_cons_of_mem p hq)

theorem filter_eq_self_of_pure {k : String} : ∀ {l : List Page},
    (∀ p ∈ l, isNodeOf k p = true) → l.filter (isNodeOf k) = l := by
  intro l h
  induction l with
  | nil => rfl
  | cons p t ih =>
    rw [List.filter_cons, h p (List.mem_cons_self p t), if_pos rfl,
      ih fun q hq => h q (List.mem_cons_of_mem p hq)]

theorem freeOf_flatten {k : String} {gs : List (List Page)}
    (h : ∀ g ∈ gs, FreeOf k g) : FreeOf k gs.flatten := by
  intro p hp
  obtain ⟨g, hg, hpg⟩ := List.mem_flatten.mp hp
  exact h g hg p hpg

theorem isNodeOf_ne_of_isNodeOf {k k' : String} {p : Page} (h : isNodeOf k' p = true)
    (hne : k' ≠ k) : isNodeOf k p = false := by
  match p with
  | Page.node n oid c f l =>
    simp only [isNodeOf, beq_iff_eq] at h
    subst h
    simp only [isNodeOf, beq_eq_false_iff_ne, ne_eq]
    exact hne
  | Page.cover a b => simp [isNodeOf] at h
  | Page.backCover a => simp [isNodeOf] at h

theorem isNodeOf_inj {k k' : String} {p : Page} (h : isNodeOf k p = true)
    (h' : isNodeOf k' p = true) : k = k' := by
  match p with
  | Page.node n oid c f l =>
    simp only [isNodeOf, beq_iff_eq] at h h'
    rw [← h, ← h']
  | Page.cover a b => simp [isNodeOf] at h
  | Page.backCover a => simp [isNodeOf] at h

theorem isNodePage_of_isNodeOf {k : String} {p : Page} (h : isNodeOf k p = true) :
    isNodePage p = true := by
  match p with
  | Page.node n oid c f l => rfl
  | Page.cover a b => simp [isNodeOf] at h
  | Page.backCover a => simp [isNodeOf] at h

theorem flatten_filter_eq_group (k : String) :
    ∀ (gs : List (List Page)) (gK : List Page),
      List.Pairwise (fun g₁ g₂ => FreeOf k g₁ ∨ FreeOf k g₂) gs →
      gK ∈ gs → (∀ p ∈ gK, isNodeOf k p = true) → gK ≠ [] →
      gs.flatten.filter (isNodeOf k) = gK := by
  intro gs
  induction gs with
  | nil => intro gK _ h _ _; simp at h
  | cons g rest ih =>
    intro gK hpw hmem hpure hne
    have hKnotfree : ¬ FreeOf k gK := by
      intro hf
      obtain ⟨p, hp⟩ := List.exists_mem_of_ne_nil gK hne
      have h1 := hf p hp
      rw [hpure p hp] at h1
      simp at h1
    rw [List.flatten_cons, List.filter_append]
    rcases List.mem_cons.mp hmem with he | he
    · subst he
      have hrf : ∀ g' ∈ rest, FreeOf k g' := by
        intro g' hg'
        rcases (List.pairwise_cons.mp hpw).1 g' hg' with h1 | h1
        · exact absurd h1 hKnotfree
        · exact h1
      rw [filter_eq_self_of_pure hpure,
        filter_eq_nil_of_free (freeOf_flatten hrf), List.append_nil]
    · have hgf : FreeOf k g := by
        rcases (List.pairwise_cons.mp hpw).1 gK he with h1 | h1
        · exact h1
        · exact absurd h1 hKnotfree
      rw [filter_eq_nil_of_free hgf, List.nil_append]
      exact ih gK (List.pairwise_cons.mp hpw).2 he hpure hne

theorem grouped_flatten (k : String) :
    ∀ (gs : List (List Page)),
      List.Pairwise (fun g₁ g₂ => FreeOf k g₁ ∨ FreeOf k g₂) gs →
      (∀ g ∈ gs, (∀ p ∈ g, isNodeOf k p = true) ∨ FreeOf k g) →
      Grouped k gs.flatten := by
  intro gs
  induction gs with
  | nil =>
    intro _ _
    exact ⟨[], [], by simp, by simp, by simp⟩
  | cons g rest ih =>
    intro hpw hpf
    by_cases hfree : FreeOf k g
    · obtain ⟨pre, post, heq, hpre, hpost⟩ :=
        ih (List.pairwise_cons.mp hpw).2
          (fun g' h' => hpf g' (List.mem_cons_of_mem g h'))
      refine ⟨g ++ pre, post, ?_, ?_, hpost⟩
      · rw [List.flatten_cons, List.filter_append, filter_eq_nil_of_free hfree,
          List.nil_append]
        conv_lhs => rw [heq]
        simp [List.append_assoc]
      · intro p hp
        rcases List.mem_append.mp hp with h1 | h1
        · exact hfree p h1
        · exact hpre p h1
    · have hpure : ∀ p ∈ g, isNodeOf k p = true := by
        rcases hpf g (List.mem_cons_self g rest) with h1 | h1
        · exact h1
        · exact absurd h1 hfree
      have hrf : ∀ g' ∈ rest, FreeOf k g' := by
        intro g' hg'
        rcases (List.pairwise_cons.mp hpw).1 g' hg' with h1 | h1
        · exact absurd h1 hfree
        · exact h1
      refine ⟨[], rest.flatten, ?_, by simp, freeOf_flatten hrf⟩
      rw [List.flatten_cons, List.filter_append, filter_eq_self_of_pure hpure,
        filter_eq_nil_of_free (freeOf_flatten hrf), List.append_nil, List.nil_append]

theorem grouped_prepend {k : String} {q l : List Page} (hq : FreeOf k q)
    (h : Grouped k l) : Grouped k (q ++ l) := by
  obtain ⟨pre, post, heq, hpre, hpost⟩ := h
  refine ⟨q ++ pre, post, ?_, ?_, hpost⟩
  · rw [List.filter_append, filter_eq_nil_of_free hq, List.nil_append]
    conv_lhs => rw [heq]
    simp [List.append_assoc]
  · intro p hp
    rcases List.mem_append.mp hp with h1 | h1
    · exact hq p h1
    · exact hpre p h1

theorem buildGroups_mem_pure {content : List Page} {k : String} {g : List Page}
    (hmem : (k, g) ∈ buildGroups content) :
    ∀ p ∈ g, isNodeOf k p = true := by
  have hnd : ((buildGroups content).map Prod.fst).Nodup :=
    buildGroupsAux_keys_nodup content [] (by simp)
  have hlk : List.lookup k (buildGroups content) = some g := nodup_lookup_eq hnd hmem
  obtain ⟨hg, _⟩ := buildGroups_lookup_some hlk
  subst hg
  intro p hp
  exact (List.mem_filter.mp hp).2

theorem filter_eq_self_of_all {α : Type} {p : α → Bool} : ∀ {l : List α},
    (∀ a ∈ l, p a = true) → l.filter p = l := by
  intro l h
  induction l with
  | nil => rfl
  | cons x t ih =>
    rw [List.filter_cons, h x (List.mem_cons_self x t), if_pos rfl,
      ih fun q hq => h q (List.mem_cons_of_mem x hq)]

theorem others_pairwise (content : List Page) (s k : String) :
    (((buildGroups content).filter fun g => g.1 ≠ s).map Prod.snd).Pairwise
      (fun g₁ g₂ => FreeOf k g₁ ∨ FreeOf k g₂) := by
  have hnd : ((buildGroups content).map Prod.fst).Nodup :=
    buildGroupsAux_keys_nodup content [] (by simp)
  have hpw0 : (buildGroups content).Pairwise (fun a b => a.1 ≠ b.1) :=
    List.pairwise_map.mp hnd
  have hpw1 : ((buildGroups content).filter fun g => g.1 ≠ s).Pairwise
      (fun a b => a.1 ≠ b.1) := hpw0.filter _
  refine List.pairwise_map.mpr ?_
  refine hpw1.imp_of_mem ?_
  intro a b ha hb hR
  have hamem : (a.1, a.2) ∈ buildGroups content := List.mem_of_mem_filter ha
  have hbmem : (b.1, b.2) ∈ buildGroups content := List.mem_of_mem_filter hb
  have hapure := buildGroups_mem_pure hamem
  have hbpure := buildGroups_mem_pure hbmem
  by_cases hak : a.1 = k
  · have hbk : b.1 ≠ k := fun hh => hR (hak.trans hh.symm)
    exact Or.inr fun p hp => isNodeOf_ne_of_isNodeOf (hbpure p hp) hbk
  · exact Or.inl fun p hp => isNodeOf_ne_of_isNodeOf (hapure p hp) hak

theorem others_pureOrFree (content : List Page) (s k : String) :
    ∀ g ∈ ((buildGroups content).filter fun g => g.1 ≠ s).map Prod.snd,
      (∀ p ∈ g, isNodeOf k p = true) ∨ FreeOf k g := by
  intro g hg
  obtain ⟨e, he, hes⟩ := List.mem_map.mp hg
  have hmem : (e.1, e.2) ∈ buildGroups content := List.mem_of_mem_filter he
  have hpure := buildGroups_mem_pure hmem
  subst hes
  by_cases hk : e.1 = k
  · left
    intro p hp
    rw [← hk]
    exact hpure p hp
  · right
    intro p hp
    exact isNodeOf_ne_of_isNodeOf (hpure p hp) hk

theorem others_freeOf_start (content : List Page) (s : String) :
    ∀ g ∈ ((buildGroups content).filter fun g => g.1 ≠ s).map Prod.snd,
      FreeOf s g := by
  intro g hg
  obtain ⟨e, he, hes⟩ := List.mem_map.mp hg
  have hkey : e.1 ≠ s := by
    have h2 := (List.mem_filter.mp he).2
    simpa using h2
  have hmem : (e.1, e.2) ∈ buildGroups content := List.mem_of_mem_filter he
  have hpure := buildGroups_mem_pure hmem
  subst hes
  intro p hp
  exact isNodeOf_ne_of_isNodeOf (hpure p hp) hkey

/-- C8: at three or fewer pages the shuffle is a no-op; above that it keeps
the first page (cover) and second page (back cover) in place, preserves the
multiset of node pages, places the start node's pages immediately after the
back cover in their original relative order followed only by pages of other
nodes, and for every node id leaves the subsequence of its pages unchanged
while keeping them contiguous whenever they were contiguous before. -/
theorem claim_c8_shuffle_invariants (rand : Nat → Nat) (startNodeId : String)
    (pages : List Page) :
    (pages.length ≤ 3 → handleShuffle rand startNodeId pages = pages) ∧
    (3 < pages.length →
      (handleShuffle rand startNodeId pages).head? = pages.head? ∧
      (handleShuffle rand startNodeId pages)[1]? = pages[1]? ∧
      ((handleShuffle rand startNodeId pages).filter isNodePage).Perm
        (pages.filter isNodePage) ∧
      (∃ rest, handleShuffle rand startNodeId pages =
          pages.take 2 ++ (pages.drop 2).filter (isNodeOf startNodeId) ++ rest ∧
          FreeOf startNodeId rest) ∧
      (∀ k, ((handleShuffle rand startNodeId pages).drop 2).filter (isNodeOf k) =
            (pages.drop 2).filter (isNodeOf k) ∧
        (Grouped k (pages.drop 2) →
          Grouped k ((handleShuffle rand startNodeId pages).drop 2)))) := by
  constructor
  · intro hle
    unfold handleShuffle
    rw [if_pos hle]
  · intro hgt
    cases pages with
    | nil => simp at hgt
    | cons p0 rest0 =>
      cases rest0 with
      | nil => simp at hgt
      | cons p1 content =>
        have hlen : ¬ (p0 :: p1 :: content).length ≤ 3 := by
          simp only [List.length_cons] at hgt ⊢
          omega
        cases hlk : List.lookup startNodeId (buildGroups content) with
        | none =>
          have hout : handleShuffle rand startNodeId (p0 :: p1 :: content)
              = p0 :: p1 :: content := by
            unfold handleShuffle
            rw [if_neg hlen]
            simp only [hlk]
          have h0 : content.filter (isNodeOf startNodeId) = [] :=
            buildGroups_lookup_none hlk
          refine ⟨by rw [hout], by rw [hout], by rw [hout], ?_, ?_⟩
          · refine ⟨content, ?_, ?_⟩
            · rw [hout]
              simp [h0]
            · intro p hp
              by_contra hc
              have hmem : p ∈ content.filter (isNodeOf startNodeId) :=
                List.mem_filter.mpr ⟨hp, by simpa using hc⟩
              rw [h0] at hmem
              simp at hmem
          · intro k
            refine ⟨by rw [hout], ?_⟩
            intro h
            rw [hout]
            exact h
        | some startG =>
          obtain ⟨hstartG, hGne⟩ := buildGroups_lookup_some hlk
          have hspure : ∀ p ∈ startG, isNodeOf startNodeId p = true := by
            rw [hstartG]
            exact fun p hp => (List.mem_filter.mp hp).2
          have hperm := shuffleArray_perm rand
            (((buildGroups content).filter fun g => g.1 ≠ startNodeId).map Prod.snd)
          have hout : handleShuffle rand startNodeId (p0 :: p1 :: content)
              = p0 :: p1 :: (startG ++
                (shuffleArray rand (((buildGroups content).filter
                  fun g => g.1 ≠ startNodeId).map Prod.snd)).flatten) := by
            unfold handleShuffle
            rw [if_neg hlen]
            simp only [hlk]
          have hflatfree : FreeOf startNodeId
              (shuffleArray rand (((buildGroups content).filter
                fun g => g.1 ≠ startNodeId).map Prod.snd)).flatten :=
            freeOf_flatten fun g hg =>
              others_freeOf_start content startNodeId g (hperm.mem_iff.mp hg)
          have hflatnode : ∀ p ∈ (shuffleArray rand (((buildGroups content).filter
              fun g => g.1 ≠ startNodeId).map Prod.snd)).flatten,
              isNodePage p = true := by
            intro p hp
            obtain ⟨g, hg, hpg⟩ := List.mem_flatten.mp hp
            obtain ⟨e, he, hes⟩ := List.mem_map.mp (hperm.mem_iff.mp hg)
            have hpure := buildGroups_mem_pure
              (show (e.1, e.2) ∈ _ from List.mem_of_mem_filter he)
            rw [← hes] at hpg
            exact isNodePage_of_isNodeOf (hpure p hpg)
          obtain ⟨A, B, hAB, hAkeys⟩ := lookup_split hlk
          have hnd : ((buildGroups content).map Prod.fst).Nodup :=
            buildGroupsAux_keys_nodup content [] (by simp)
          have hnd2 := hnd
          rw [hAB, List.map_append, List.map_cons] at hnd2
          have hsB : startNodeId ∉ B.map Prod.fst :=
            (List.nodup_cons.mp hnd2.of_append_right).1
          have hBkeys : ∀ q ∈ B, q.1 ≠ startNodeId :=
            fun q hq he => hsB (List.mem_map.mpr ⟨q, hq, he⟩)
          have hfilterAB : ((buildGroups content).filter
              fun g => g.1 ≠ startNodeId) = A ++ B := by
            rw [hAB, List.filter_append, List.filter_cons]
            rw [if_neg (by simp)]
            rw [filter_eq_self_of_all fun q hq => decide_eq_true (hAkeys q hq),
              filter_eq_self_of_all fun q hq => decide_eq_true (hBkeys q hq)]
          refine ⟨by rw [hout]; rfl, by rw [hout]; simp, ?_, ?_, ?_⟩
          · rw [hout]
            have hsplit2 : ∀ X : List Page, (p0 :: p1 :: X).filter isNodePage
                = ([p0, p1].filter isNodePage) ++ X.filter isNodePage := by
              intro X
              rw [show p0 :: p1 :: X = [p0, p1] ++ X from rfl, List.filter_append]
            conv_lhs => rw [hsplit2]
            conv_rhs => rw [hsplit2]
            refine List.Perm.append_left _ ?_
            rw [List.filter_append,
              filter_eq_self_of_all fun p hp => isNodePage_of_isNodeOf (hspure p hp),
              filter_eq_self_of_all hflatnode]
            have hflatgroups : (((buildGroups content).map Prod.snd).flatten).Perm
                (content.filter isNodePage) := by
              have h := buildGroupsAux_flatten_perm content []
              simpa using h
            have hflatAB : ((buildGroups content).map Prod.snd).flatten
                = (A.map Prod.snd).flatten ++
                  (startG ++ (B.map Prod.snd).flatten) := by
              rw [hAB]
              simp [List.map_append, List.map_cons, List.flatten_append,
                List.flatten_cons]
            have hflatperm : ((shuffleArray rand (((buildGroups content).filter
                fun g => g.1 ≠ startNodeId).map Prod.snd)).flatten).Perm
                ((A.map Prod.snd).flatten ++ (B.map Prod.snd).flatten) := by
              refine hperm.flatten.trans ?_
              rw [hfilterAB, List.map_append, List.flatten_append]
            have hstep1 := hflatperm.append_left startG
            have hstep2 : (startG ++ ((A.map Prod.snd).flatten ++
                (B.map Prod.snd).flatten)).Perm
                ((A.map Prod.snd).flatten ++
                  (startG ++ (B.map Prod.snd).flatten)) := by
              rw [← List.append_assoc, ← List.append_assoc]
              exact (List.perm_append_comm.append_right _)
            refine (hstep1.trans hstep2).trans ?_
            rw [← hflatAB]
            exact hflatgroups
          · refine ⟨(shuffleArray rand (((buildGroups content).filter
                fun g => g.1 ≠ startNodeId).map Prod.snd)).flatten, ?_, hflatfree⟩
            rw [hout]
            simp only [List.drop_succ_cons, List.drop_zero, List.take_succ_cons,
              List.take_zero]
            rw [← hstartG]
            simp [List.append_assoc]
          · intro k
            have hpwsh : (shuffleArray rand (((buildGroups content).filter
                fun g => g.1 ≠ startNodeId).map Prod.snd)).Pairwise
                (fun g₁ g₂ => FreeOf k g₁ ∨ FreeOf k g₂) := by
              refine (List.Perm.pairwise_iff ?_ hperm).mpr
                (others_pairwise content startNodeId k)
              intro a b h
              exact h.symm
            have hpfsh : ∀ g ∈ shuffleArray rand (((buildGroups content).filter
                fun g => g.1 ≠ startNodeId).map Prod.snd),
                (∀ p ∈ g, isNodeOf k p = true) ∨ FreeOf k g :=
              fun g hg => others_pureOrFree content startNodeId k g
                (hperm.mem_iff.mp hg)
            constructor
            · rw [hout]
              show ((startG ++ _).filter (isNodeOf k)) = content.filter (isNodeOf k)
              by_cases hk : k = startNodeId
              · subst hk
                rw [List.filter_append, filter_eq_self_of_pure hspure,
                  filter_eq_nil_of_free hflatfree, List.append_nil]
                exact hstartG
              · have hGfree : FreeOf k startG := fun p hp =>
                  isNodeOf_ne_of_isNodeOf (hspure p hp) fun h => hk h.symm
                rw [List.filter_append, filter_eq_nil_of_free hGfree,
                  List.nil_append]
                cases hlk2 : List.lookup k (buildGroups content) with
                | none =>
                  have hnof : content.filter (isNodeOf k) = [] :=
                    buildGroups_lookup_none hlk2
                  have hfree : FreeOf k (shuffleArray rand (((buildGroups
                      content).filter fun g => g.1 ≠ startNodeId).map
                        Prod.snd)).flatten := by
                    intro p hp
                    obtain ⟨g, hg, hpg⟩ := List.mem_flatten.mp hp
                    obtain ⟨e, he, hes⟩ := List.mem_map.mp (hperm.mem_iff.mp hg)
                    have hpure := buildGroups_mem_pure
                      (show (e.1, e.2) ∈ _ from List.mem_of_mem_filter he)
                    rw [← hes] at hpg
                    by_cases hek : e.1 = k
                    · exfalso
                      have hks : k ∈ (buildGroups content).map Prod.fst :=
                        List.mem_map.mpr ⟨e, List.mem_of_mem_filter he, hek⟩
                      have hsome := mem_keys_lookup_isSome hks
                      rw [hlk2] at hsome
                      simp at hsome
                    · exact isNodeOf_ne_of_isNodeOf (hpure p hpg) hek
                  rw [filter_eq_nil_of_free hfree, hnof]
                | some gK =>
                  obtain ⟨hgK, hgKne⟩ := buildGroups_lookup_some hlk2
                  obtain ⟨A2, B2, hAB2, _⟩ := lookup_split hlk2
                  have hmemg : (k, gK) ∈ buildGroups content := by
                    rw [hAB2]
                    exact List.mem_append.mpr (Or.inr (List.mem_cons_self _ _))
                  have hmemf : (k, gK) ∈ (buildGroups content).filter
                      fun g => g.1 ≠ startNodeId :=
                    List.mem_filter.mpr ⟨hmemg, by simpa using hk⟩
                  have hgother : gK ∈ ((buildGroups content).filter
                      fun g => g.1 ≠ startNodeId).map Prod.snd :=
                    List.mem_map.mpr ⟨(k, gK), hmemf, rfl⟩
                  have hgsh : gK ∈ shuffleArray rand (((buildGroups
                      content).filter fun g => g.1 ≠ startNodeId).map Prod.snd) :=
                    hperm.mem_iff.mpr hgother
                  have hpurek : ∀ p ∈ gK, isNodeOf k p = true := by
                    rw [hgK]
                    exact fun p hp => (List.mem_filter.mp hp).2
                  exact (flatten_filter_eq_group k _ gK hpwsh hgsh hpurek
                    hgKne).trans hgK
            · intro _
              rw [hout]
              show Grouped k (startG ++ _)
              by_cases hk : k = startNodeId
              · subst hk
                refine ⟨[], _, ?_, by simp, hflatfree⟩
                rw [List.filter_append, filter_eq_self_of_pure hspure,
                  filter_eq_nil_of_free hflatfree, List.append_nil,
                  List.nil_append]
              · have hGfree : FreeOf k startG := fun p hp =>
                  isNodeOf_ne_of_isNodeOf (hspure p hp) fun h => hk h.symm
                exact grouped_prepend hGfree (grouped_flatten k _ hpwsh hpfsh)

def shNodeS : Page := Page.node (mkNode "s" ['S'] []) "s" ['S'] true true

def shNodeA : Page := Page.node (mkNode "a" ['A'] []) "a" ['A'] true true

def shNodeB : Page := Page.node (mkNode "b" ['B'] []) "b" ['B'] true true

def shPages : List Page :=
  [Page.cover "t" "u", Page.backCover "p", shNodeS, shNodeA, shNodeB]

/-- Witness for C8 on a five-page book: the shuffle with a concrete oracle
preserves the multiset of node pages. -/
theorem claim_c8_witness :
    3 < shPages.length ∧
    ((handleShuffle (fun _ => 0) "s" shPages).filter isNodePage).Perm
      (shPages.filter isNodePage) :=
  ⟨by decide,
    ((claim_c8_shuffle_invariants (fun _ => 0) "s" shPages).2 (by decide)).2.2.1⟩

/-! ## Claim C5 (page references and continuation markers) -/

def exA5 : StoryNode :=
  mkNode "a" ['A'] [mkChoice "c1" (some "b") ChoicePrediction.none,
    mkChoice "c2" (some "c") ChoicePrediction.none]

def exB5 : StoryNode := mkNode "b" (List.replicate 1101 'a') []

def exC5 : StoryNode := mkNode "c" ['C'] []

/-- A story whose node `b` spans two physical pages: `a` (start) links to
`b` and `c`. -/
def exStory5 : Story :=
  mkStory [("a", exA5), ("b", exB5), ("c", exC5)] "a" []

theorem exStory5_pageMap :
    generatePageMap exStory5.nodes exStory5.startNodeId
      = [("a", 1), ("b", 2), ("c", 3)] := by
  have hca : exA5.choices = [mkChoice "c1" (some "b") ChoicePrediction.none,
    mkChoice "c2" (some "c") ChoicePrediction.none] := rfl
  have hcb : exB5.choices = [] := rfl
  have hcc : exC5.choices = [] := rfl
  simp [generatePageMap, bfsVisit, newNodes, collectNew, exStory5, mkStory,
    mkChoice, mapSet, List.lookup, appendOrphans, List.insertionSort,
    hca, hcb, hcc, -List.reduceReplicate]

theorem exStory5_runA :
    nodeRun exStory5 "a" = [Page.node exA5 "a" ['A'] true true] := by
  simp [nodeRun, exStory5, exA5, mkStory, mkNode, List.lookup,
    splitTextIntoChunks, maxCharsPerPage, List.enum]

theorem exStory5_runC :
    nodeRun exStory5 "c" = [Page.node exC5 "c" ['C'] true true] := by
  simp [nodeRun, exStory5, exA5, exB5, exC5, mkStory, mkNode, List.lookup,
    splitTextIntoChunks, maxCharsPerPage, List.enum]

theorem exStory5_runB :
    nodeRun exStory5 "b"
      = [Page.node exB5 "b" (List.replicate 1100 'a') true false,
         Page.node exB5 "b" ['a'] false true] := by
  have hlk : List.lookup "b" exStory5.nodes = some exB5 := by
    simp [exStory5, mkStory, List.lookup]
  rw [nodeRun, hlk]
  have hd : exB5.dialogue = List.replicate 1101 'a' := rfl
  simp only [hd, split_replicate_1101]
  simp [List.enum, List.enumFrom, -List.reduceReplicate]

/-- The initial layout of `exStory5`: six pages, `b` split over pages 4 and
5 with continuation markers pointing at pages 5 and 4 respectively. -/
def exPagesLayout : List Page :=
  [Page.cover "t" "cover", Page.backCover "p",
   Page.node exA5 "a" ['A'] true true,
   Page.node exB5 "b" (List.replicate 1100 'a' ++ contOnText 5) true false,
   Page.node exB5 "b" (contFromText 4 ++ ['a']) false true,
   Page.node exC5 "c" ['C'] true true]

theorem exStory5_layout : layoutPages exStory5 = exPagesLayout := by
  have hsort : List.insertionSort (fun a b => a.2 ≤ b.2)
      ([("a", 1), ("b", 2), ("c", 3)] : List (String × Nat))
      = [("a", 1), ("b", 2), ("c", 3)] := by
    simp [List.insertionSort, List.orderedInsert]
  have htemp : tempPages exStory5
      = [Page.cover "t" "cover", Page.backCover "p",
         Page.node exA5 "a" ['A'] true true,
         Page.node exB5 "b" (List.replicate 1100 'a') true false,
         Page.node exB5 "b" ['a'] false true,
         Page.node exC5 "c" ['C'] true true] := by
    simp only [tempPages, storyRuns]
    rw [exStory5_pageMap, hsort]
    simp only [List.map_cons, List.map_nil]
    rw [exStory5_runA, exStory5_runB, exStory5_runC]
    simp [exStory5, mkStory, -List.reduceReplicate]
  rw [layoutPages, htemp]
  simp [addContinuations, List.enum, List.enumFrom, exPagesLayout,
    -List.reduceReplicate]

/-- The pages of `exStory5` after a shuffle whose oracle always draws `0`:
the groups of `b` and `c` swap, but the markers baked into the `b` pages
still name pages 5 and 4. -/
def exPagesShuffled : List Page :=
  [Page.cover "t" "cover", Page.backCover "p",
   Page.node exA5 "a" ['A'] true true,
   Page.node exC5 "c" ['C'] true true,
   Page.node exB5 "b" (List.replicate 1100 'a' ++ contOnText 5) true false,
   Page.node exB5 "b" (contFromText 4 ++ ['a']) false true]

theorem exStory5_shuffled :
    handleShuffle (fun _ => 0) "a" (layoutPages exStory5) = exPagesShuffled := by
  rw [exStory5_layout]
  simp [handleShuffle, exPagesLayout, exPagesShuffled, buildGroups,
    buildGroupsAux, addToGroup, List.lookup, shuffleArray, fyAux, listSwap,
    -List.reduceReplicate]

end CYOA
